import Mathlib

/-!
Shallow embedding of `src/lia/tree.py` (classes `LdapNode`, `LdapTree`,
exceptions `NodeNotEmptyError`, `TreePetrifiedError`) and proofs of the
specification claims about it.

Modelling conventions:
* Nodes live in an arena (`LdapTree.nodes : List LdapNode`); a node is
  identified by its index, index 0 is `self.__top`.  Object identity in the
  Python source corresponds to index equality; `parent` back-references are
  `Option Nat` indices (`None` for the root).
* Python `set`s (`self.__nodes_with_data`, `self.__branches`, the
  `descendants` sets) are modelled as duplicate-free lists built with
  `insertSet`; `set.add` is `insertSet`.  Python set iteration order is
  arbitrary; the model fixes insertion order (the `_petrify` pass is
  order-independent, which the proofs below do not exploit beyond this fixed
  order).
* Python dicts (`children`) are association lists keyed by the segment
  string; keys are unique because a binding is only ever added after a
  failed lookup.
* Python truthiness of `node.data` (`if node.data:`) is modelled by
  `truthyOpt`: `None` is falsy, and an `Entry` carries its own truthiness
  bit (the payload type is opaque to the core).
* Exceptions are modelled by `Exc`; stateful methods return the tree state
  at the moment of the raise together with an `Except` value, because the
  source performs no rollback.
-/

namespace Lia

/-- One parsed DN component `(attribute, value, separator)` exactly as
returned by `ldap3.utils.dn.parse_dn` (an external collaborator of the
core): within a multi-valued RDN every component but the last carries the
separator `"+"`; the last component of the whole DN carries `""`. -/
abbrev DNComp := String × String × String

/-- A payload passed to `LdapTree.add_node`.  The source reads only
`data.dn` (here already parsed into components) and the Python truthiness
of the object (`if node.data:`), so the model carries the parsed DN, an
opaque payload tag and the truthiness bit. -/
structure Entry where
  dn : List DNComp
  payload : Nat
  truthy : Bool
deriving DecidableEq

/-- Python truthiness of a `node.data` slot: `None` is falsy, an object
reports its own truthiness. -/
def truthyOpt : Option Entry → Bool
  | none => false
  | some e => e.truthy

/-- `LdapNode.__init__`: `parent` as given, empty `children` dict,
`descendants = None`, `data = None`, `toplevel = True`. -/
structure LdapNode where
  parent : Option Nat
  children : List (String × Nat)
  descendants : Option (List Nat)
  data : Option Entry
  toplevel : Bool
deriving DecidableEq

/-- A freshly constructed `LdapNode(parent)`. -/
def newNode (parent : Option Nat) : LdapNode :=
  { parent := parent, children := [], descendants := none, data := none, toplevel := true }

/-- `LdapTree` state: the node arena plus the two registration sets and the
`__petrified` flag. -/
structure LdapTree where
  nodes : List LdapNode
  nodesWithData : List Nat
  branches : List Nat
  petrified : Bool
deriving DecidableEq

/-- `LdapTree.__init__`. -/
def emptyTree : LdapTree :=
  { nodes := [newNode none], nodesWithData := [], branches := [], petrified := false }

/-- Arena lookup (all indices produced by the operations are in bounds; the
default is never reached on states built by the API). -/
def getNode (t : LdapTree) (i : Nat) : LdapNode := t.nodes.getD i (newNode none)

/-- Mutate the node at index `i` in place. -/
def setNode (t : LdapTree) (i : Nat) (f : LdapNode → LdapNode) : LdapTree :=
  { t with nodes := t.nodes.set i (f (getNode t i)) }

/-- Python `set.add`. -/
def insertSet (x : Nat) (l : List Nat) : List Nat := if x ∈ l then l else l ++ [x]

/-- The exceptions that can propagate out of the modelled methods.
`treePetrifiedError` is `TreePetrifiedError`; `typeError` and
`attributeError` model the corresponding Python built-in exceptions. -/
inductive Exc where
  | treePetrifiedError
  | typeError (msg : String)
  | attributeError (msg : String)
deriving DecidableEq

/-- Python `sorted` on a list of strings (lexicographic code-point order;
any total antisymmetric order gives the same sorted list). -/
def strSort (l : List String) : List String := List.insertionSort (fun a b => a ≤ b) l

/-- Loop body of `_dn_to_path`: the state is `(rdn, path)`; each component
appends `key + "=" + value` to `rdn` and, unless the component's separator
is `"+"`, flushes `"+".join(sorted(rdn))` onto `path`. -/
def dnStep (st : List String × List String) (c : DNComp) : List String × List String :=
  let rdn := st.1 ++ [c.1 ++ "=" ++ c.2.1]
  if c.2.2 ≠ "+" then ([], st.2 ++ [String.intercalate "+" (strSort rdn)])
  else (rdn, st.2)

/-- `LdapTree._dn_to_path`.  The source returns `reversed(path)` — a
one-shot `list_reverseiterator`; this model returns the list of segments it
yields, i.e. `path` reversed (top-down order).  The one-shot nature of the
iterator matters only at the `NodeNotEmptyError` raise site, where it is
modelled explicitly. -/
def dn_to_path (dn : List DNComp) : List String :=
  (dn.foldl dnStep ([], [])).2.reverse

/-- Python `node.children[name]` lookup (as an `Option`). -/
def lookupChild (t : LdapTree) (n : Nat) (s : String) : Option Nat :=
  ((getNode t n).children.find? (fun p => p.1 == s)).map (fun p => p.2)

/-- The `except KeyError` arm of the descent: `node = LdapNode(parent);
parent.children[name] = node`. -/
def newChild (t : LdapTree) (pid : Nat) (name : String) : LdapTree × Nat :=
  let cid := t.nodes.length
  let t1 : LdapTree := { t with nodes := t.nodes ++ [newNode (some pid)] }
  (setNode t1 pid (fun n => { n with children := n.children ++ [(name, cid)] }), cid)

/-- The descent loop of `_add_node`: select or create each node of the
path; after each step, if the node just reached has truthy data, the
running `toplevel` flag drops to `False`. -/
def descendLoop : List String → LdapTree → Nat → Bool → LdapTree × Nat × Bool
  | [], t, nid, tl => (t, nid, tl)
  | name :: rest, t, nid, tl =>
    match lookupChild t nid name with
    | some c => descendLoop rest t c (tl && !truthyOpt (getNode t c).data)
    | none =>
      let tc := newChild t nid name
      descendLoop rest tc.1 tc.2 (tl && !truthyOpt (getNode tc.1 tc.2).data)

/-- `LdapTree._add_node`.  On the data-conflict branch the source executes
`raise NodeNotEmptyError(path)`, but `path` is the `list_reverseiterator`
already exhausted by the descent loop, and `NodeNotEmptyError.__init__`
calls `reversed(path)` on it — `reversed` on a `list_reverseiterator`
raises `TypeError`, so the exception that actually propagates is a
`TypeError` and the dn reconstruction never happens. -/
def add_node_core (t : LdapTree) (e : Entry) : LdapTree × Except Exc Nat :=
  if t.petrified then (t, .error .treePetrifiedError)
  else
    let path := dn_to_path e.dn
    let r := descendLoop path t 0 true
    if truthyOpt (getNode r.1 r.2.1).data then
      (r.1, .error (.typeError "list_reverseiterator object is not reversible"))
    else
      let t2 := setNode r.1 r.2.1 (fun n => { n with data := some e, toplevel := r.2.2 })
      ({ t2 with nodesWithData := insertSet r.2.1 t2.nodesWithData }, .ok r.2.1)

/-- `LdapTree.add_node`.  Note the source's `add_node` binds the node
returned by `_add_node` but itself falls off the end, i.e. returns `None`:
the returned value is modelled as `Option Nat` and is always `none` on
success. -/
def add_node (t : LdapTree) (e : Entry) (is_leaf : Bool) : LdapTree × Except Exc (Option Nat) :=
  match add_node_core t e with
  | (t1, .error exc) => (t1, .error exc)
  | (t1, .ok nid) =>
    if !is_leaf then
      let t2 := setNode t1 nid (fun n => { n with descendants := some [] })
      ({ t2 with branches := insertSet nid t2.branches }, .ok none)
    else (t1, .ok none)

/-- The success-branch state update of `_add_node` (factored out of
`add_node_core`, to which it is definitionally equal — see
`add_node_core_eq`): assign the data and the computed `toplevel`, then
register the node in `__nodes_with_data`. -/
def applyData (r : LdapTree × Nat × Bool) (e : Entry) : LdapTree :=
  let t2 := setNode r.1 r.2.1 (fun n => { n with data := some e, toplevel := r.2.2 })
  { t2 with nodesWithData := insertSet r.2.1 t2.nodesWithData }

/-- The branch-registration step of `add_node` (factored out, see
`add_node_eq`): `node.descendants = set(); self.__branches.add(node)`. -/
def registerBranch (t1 : LdapTree) (nid : Nat) : LdapTree :=
  let t2 := setNode t1 nid (fun n => { n with descendants := some [] })
  { t2 with branches := insertSet nid t2.branches }

/-- The stop test of the upward walk: `parent.data and parent.descendants
is not None`. -/
def qualifies (t : LdapTree) (p : Nat) : Bool :=
  truthyOpt (getNode t p).data && (getNode t p).descendants.isSome

/-- The `while True` upward walk of `_petrify`, with explicit fuel (the
parent chain of a well-formed tree strictly decreases the index, so fuel
`t.nodes.length` never runs out — proved below).  `parent == self.__top`
is index 0; a `None` parent fails that test and then crashes on
`parent.data`, exactly like the source. -/
def walkLoop (t : LdapTree) : Nat → Option Nat → Except Exc (Option Nat)
  | 0, _ => .ok none
  | fuel + 1, par =>
    match par with
    | none => .error (.attributeError "NoneType object has no attribute data")
    | some p =>
      if p = 0 then .ok none
      else if qualifies t p then .ok (some p)
      else walkLoop t fuel (getNode t p).parent

/-- The body of `_petrify`'s `for` loop for a single node of
`__nodes_with_data`. -/
def petrifyNode (t : LdapTree) (nid : Nat) : Except Exc LdapTree :=
  if (getNode t nid).toplevel then
    match walkLoop t t.nodes.length (getNode t nid).parent with
    | .error exc => .error exc
    | .ok none => .ok t
    | .ok (some p) =>
      .ok (setNode (setNode t nid (fun n => { n with toplevel := false })) p
            (fun n => { n with descendants := n.descendants.map (insertSet nid) }))
  else .ok t

/-- The `for node in self.__nodes_with_data` loop of `_petrify`. -/
def petrifyFold : List Nat → LdapTree → Except Exc LdapTree
  | [], t => .ok t
  | n :: rest, t =>
    match petrifyNode t n with
    | .error exc => .error exc
    | .ok t1 => petrifyFold rest t1

/-- `LdapTree._petrify`: classify every data node, then set
`__petrified = True`. -/
def petrify (t : LdapTree) : Except Exc LdapTree :=
  match petrifyFold t.nodesWithData t with
  | .error exc => .error exc
  | .ok t1 => .ok { t1 with petrified := true }

/-- `LdapTree.__iter__`: petrify on first read, then return the branch
set (iteration order of a Python set is arbitrary; the model returns the
underlying list). -/
def iterate (t : LdapTree) : Except Exc (LdapTree × List Nat) :=
  if !t.petrified then
    match petrify t with
    | .error exc => .error exc
    | .ok t1 => .ok (t1, t1.branches)
  else .ok (t, t.branches)

/-- Resolve a normalized path by child lookups only (specification-side
helper: the node a path denotes in a given tree). -/
def resolve (t : LdapTree) : List String → Nat → Option Nat
  | [], n => some n
  | s :: rest, n =>
    match lookupChild t n s with
    | some c => resolve t rest c
    | none => none

/-- The chain of strict ancestors of a node, from its parent upward,
excluding the root (index 0), with explicit fuel. -/
def ancestorsAux (t : LdapTree) : Nat → Option Nat → List Nat
  | 0, _ => []
  | fuel + 1, par =>
    match par with
    | none => []
    | some p => if p = 0 then [] else p :: ancestorsAux t fuel (getNode t p).parent

/-- The strict ancestor chain of node `n` (root excluded). -/
def ancestorsUp (t : LdapTree) (n : Nat) : List Nat :=
  ancestorsAux t t.nodes.length (getNode t n).parent

/-- Every non-root node has a parent of strictly smaller index (arena
creation order). -/
def parentsOk (t : LdapTree) : Bool :=
  (List.range t.nodes.length).all fun i =>
    i == 0 ||
      (match (getNode t i).parent with
       | some p => decide (p < i)
       | none => false)

/-- Every registered data node is a proper in-bounds node: in particular
the root never carries data (guaranteed by the DN parser contract — a
parsed DN is a non-empty component list whose last separator is not `"+"`,
so every normalized path is non-empty). -/
def dataNodesOk (t : LdapTree) : Bool :=
  t.nodesWithData.all fun n => decide (0 < n) && decide (n < t.nodes.length)

/-- Every child link points to a proper in-bounds node (children are
created after their parent and are never the root). -/
def childrenOk (t : LdapTree) : Bool :=
  (List.range t.nodes.length).all fun i =>
    (getNode t i).children.all fun sc => decide (0 < sc.2) && decide (sc.2 < t.nodes.length)

/-- Executable well-formedness of a tree state, satisfied by every state
reachable through `add_node` with parser-produced DNs. -/
def wfB (t : LdapTree) : Bool :=
  decide (0 < t.nodes.length) && parentsOk t && dataNodesOk t && childrenOk t

/-- The contents of a node's `descendants` set (empty when `None`). -/
def descList (t : LdapTree) (b : Nat) : List Nat := (getNode t b).descendants.getD []

/-- The upward walk from node `x` finds some qualifying ancestor. -/
def foundB (t0 : LdapTree) (x : Nat) : Prop :=
  ∃ p, walkLoop t0 t0.nodes.length (getNode t0 x).parent = Except.ok (some p)

/-- Simulation invariant for the `_petrify` pass: `s` is the state after
processing exactly the candidates in `P` starting from `t0`.  Only
`toplevel` flags and `descendants` contents change; everything the walk
reads is untouched, so each candidate's walk on `s` agrees with its walk
on `t0`. -/
def simInv (t0 : LdapTree) (P : List Nat) (s : LdapTree) : Prop :=
  s.nodes.length = t0.nodes.length ∧
  s.nodesWithData = t0.nodesWithData ∧
  s.branches = t0.branches ∧
  s.petrified = t0.petrified ∧
  (∀ i, (getNode s i).parent = (getNode t0 i).parent ∧
        (getNode s i).data = (getNode t0 i).data ∧
        (getNode s i).descendants.isSome = (getNode t0 i).descendants.isSome) ∧
  (∀ i, (getNode s i).toplevel = true ↔
     ((getNode t0 i).toplevel = true ∧ ¬(i ∈ P ∧ foundB t0 i))) ∧
  (∀ b x, x ∈ descList s b ↔
     x ∈ descList t0 b ∨
       (x ∈ P ∧ (getNode t0 x).toplevel = true ∧
         walkLoop t0 t0.nodes.length (getNode t0 x).parent = Except.ok (some b)))

/-- Invariant of every tree reachable from `LdapTree()` through
`add_node` calls whose payloads are truthy and whose DNs are
parser-produced (non-empty path): well-formed, still mutable, every
registered branch is an in-bounds node with truthy data and a present
`descendants` set, and only registered branches have a `descendants`
set. -/
def reachInv (t : LdapTree) : Prop :=
  wfB t = true ∧ t.petrified = false ∧
  (∀ b ∈ t.branches, b < t.nodes.length ∧ truthyOpt (getNode t b).data = true ∧
    (getNode t b).descendants.isSome = true) ∧
  (∀ i, (getNode t i).descendants.isSome = true → i ∈ t.branches)

/-- One caller step: `tree.add_node(data, is_leaf)`, keeping the tree
whatever the outcome (a caller that catches exceptions and carries on). -/
def runStep (t : LdapTree) (op : Entry × Bool) : LdapTree := (add_node t op.1 op.2).1

/-- A build phase: a sequence of `add_node` calls. -/
def runOps (ops : List (Entry × Bool)) (t : LdapTree) : LdapTree := ops.foldl runStep t

/-- `key + "=" + value` for one attribute/value pair. -/
def pairStr (p : String × String) : String := p.1 ++ "=" ++ p.2

/-- Build one multi-valued RDN level out of attribute/value pairs: every
pair but the last gets separator `"+"`, the last gets `sep` (the separator
that ends the level, `","` or `""` in parser output). -/
def mkLevel : List (String × String) → String → List DNComp
  | [], _ => []
  | [kv], sep => [(kv.1, kv.2, sep)]
  | kv :: kv2 :: rest, sep => (kv.1, kv.2, "+") :: mkLevel (kv2 :: rest) sep

/-! ### Concrete fixtures (used by the closed evaluation theorems) -/

/-- `cn=a,dc=com`, truthy payload, inserted as leaf in the scenarios. -/
def entA : Entry := { dn := [("cn", "a", ","), ("dc", "com", "")], payload := 1, truthy := true }

/-- `dc=com`, truthy payload. -/
def entP : Entry := { dn := [("dc", "com", "")], payload := 2, truthy := true }

/-- `dc=com`, falsy payload (an object whose `__bool__` is `False`). -/
def entF : Entry := { dn := [("dc", "com", "")], payload := 3, truthy := false }

/-- `dc=com`, truthy payload, a second insert at an occupied path. -/
def entPdup : Entry := { dn := [("dc", "com", "")], payload := 9, truthy := true }

/-- Leaf `cn=a,dc=com` inserted first, then branch `dc=com`. -/
def treeC : LdapTree := runOps [(entA, true), (entP, false)] emptyTree

/-- `treeC` after `_petrify`. -/
def treeP : LdapTree :=
  match petrify treeC with
  | .ok t => t
  | .error _ => emptyTree

/-- Branch `dc=com` alone. -/
def tree7 : LdapTree := runOps [(entP, false)] emptyTree

/-- The state `add_node` leaves behind when the duplicate insert fails. -/
def tree7c : LdapTree := (add_node tree7 entPdup false).1

/-- Destination state of a successful `_add_node` of `cn=a,dc=com` on `tree7`. -/
def tree9 : LdapTree := (add_node_core tree7 entA).1

/-- Intermediate state for the C6 scenario: branch then leaf. -/
def tree6pre : LdapTree := runOps [(entP, false)] emptyTree

def tree6mid : LdapTree := (add_node_core tree6pre entA).1

def tree6 : LdapTree := runOps [(entP, false), (entA, true)] emptyTree

def tree6P : LdapTree :=
  match iterate tree6 with
  | .ok (tf, _) => tf
  | .error _ => emptyTree

def br6 : List Nat :=
  match iterate tree6 with
  | .ok (_, br) => br
  | .error _ => []

/-- Falsy `dc=com` inserted as branch (for the overwrite scenario). -/
def treeF1 : LdapTree := (add_node_core emptyTree entF).1

/-- Falsy branch `dc=com` alone (start state for the descent scenario). -/
def tree10pre : LdapTree := runOps [(entF, false)] emptyTree

def tree10b : LdapTree := (add_node_core tree10pre entA).1

/-- Leaf `cn=a,dc=com` first, then falsy branch `dc=com`. -/
def tree10c : LdapTree := runOps [(entA, true), (entF, false)] emptyTree

def tree10cp : LdapTree :=
  match petrify tree10c with
  | .ok t => t
  | .error _ => emptyTree

/-! ### Basic lemmas about the arena primitives -/

lemma getD_set_self {α : Type _} (l : List α) (i : Nat) (d x : α) (h : i < l.length) :
    (l.set i x).getD i d = x := by
  simp [List.getD_eq_getElem?_getD, List.getElem?_set, h]

lemma getD_set_ne {α : Type _} (l : List α) (i j : Nat) (d x : α) (h : j ≠ i) :
    (l.set i x).getD j d = l.getD j d := by
  simp [List.getD_eq_getElem?_getD, List.getElem?_set, Ne.symm h]

lemma getD_append_lt {α : Type _} (l l2 : List α) (i : Nat) (d : α) (h : i < l.length) :
    (l ++ l2).getD i d = l.getD i d := by
  simp [List.getD_eq_getElem?_getD, List.getElem?_append, h]

lemma getD_append_len {α : Type _} (l : List α) (x : α) (d : α) :
    (l ++ [x]).getD l.length d = x := by
  simp [List.getD_eq_getElem?_getD, List.getElem?_append_right]

@[simp] lemma setNode_nodesWithData (t : LdapTree) (i : Nat) (f : LdapNode → LdapNode) :
    (setNode t i f).nodesWithData = t.nodesWithData := rfl

@[simp] lemma setNode_branches (t : LdapTree) (i : Nat) (f : LdapNode → LdapNode) :
    (setNode t i f).branches = t.branches := rfl

@[simp] lemma setNode_petrified (t : LdapTree) (i : Nat) (f : LdapNode → LdapNode) :
    (setNode t i f).petrified = t.petrified := rfl

@[simp] lemma setNode_length (t : LdapTree) (i : Nat) (f : LdapNode → LdapNode) :
    (setNode t i f).nodes.length = t.nodes.length := by
  simp [setNode]

lemma getNode_setNode_self (t : LdapTree) (i : Nat) (f : LdapNode → LdapNode)
    (h : i < t.nodes.length) : getNode (setNode t i f) i = f (getNode t i) :=
  getD_set_self _ _ _ _ h

lemma getNode_setNode_ne (t : LdapTree) (i j : Nat) (f : LdapNode → LdapNode)
    (h : j ≠ i) : getNode (setNode t i f) j = getNode t j :=
  getD_set_ne _ _ _ _ _ h

lemma mem_insertSet {x y : Nat} {l : List Nat} : y ∈ insertSet x l ↔ y = x ∨ y ∈ l := by
  unfold insertSet
  split
  · rename_i h
    constructor
    · exact fun hy => Or.inr hy
    · rintro (rfl | hy) <;> assumption
  · simp [or_comm]

lemma self_mem_insertSet (x : Nat) (l : List Nat) : x ∈ insertSet x l :=
  mem_insertSet.mpr (Or.inl rfl)

/-! ### Lemmas about `newChild` -/

@[simp] lemma newChild_nodesWithData (t : LdapTree) (p : Nat) (nm : String) :
    (newChild t p nm).1.nodesWithData = t.nodesWithData := rfl

@[simp] lemma newChild_branches (t : LdapTree) (p : Nat) (nm : String) :
    (newChild t p nm).1.branches = t.branches := rfl

@[simp] lemma newChild_petrified (t : LdapTree) (p : Nat) (nm : String) :
    (newChild t p nm).1.petrified = t.petrified := rfl

@[simp] lemma newChild_length (t : LdapTree) (p : Nat) (nm : String) :
    (newChild t p nm).1.nodes.length = t.nodes.length + 1 := by
  simp [newChild, setNode]

@[simp] lemma newChild_id (t : LdapTree) (p : Nat) (nm : String) :
    (newChild t p nm).2 = t.nodes.length := rfl

/-- In the appended-but-not-yet-linked arena, old indices read unchanged. -/
lemma getNode_appendArena (t : LdapTree) (x : LdapNode) (i : Nat) (h : i < t.nodes.length) :
    getNode { t with nodes := t.nodes ++ [x] } i = getNode t i :=
  getD_append_lt _ _ _ _ h

lemma getNode_appendArena_new (t : LdapTree) (x : LdapNode) :
    getNode { t with nodes := t.nodes ++ [x] } t.nodes.length = x :=
  getD_append_len _ _ _

/-- `newChild` keeps every field but `children` of every old node. -/
lemma getNode_newChild_old (t : LdapTree) (p : Nat) (nm : String) (i : Nat)
    (h : i < t.nodes.length) :
    (getNode (newChild t p nm).1 i).data = (getNode t i).data ∧
    (getNode (newChild t p nm).1 i).descendants = (getNode t i).descendants ∧
    (getNode (newChild t p nm).1 i).toplevel = (getNode t i).toplevel ∧
    (getNode (newChild t p nm).1 i).parent = (getNode t i).parent := by
  unfold newChild
  by_cases hip : i = p
  · subst hip
    rw [getNode_setNode_self _ _ _ (by simp; omega), getNode_appendArena _ _ _ h]
    exact ⟨rfl, rfl, rfl, rfl⟩
  · rw [getNode_setNode_ne _ _ _ _ hip, getNode_appendArena _ _ _ h]
    exact ⟨rfl, rfl, rfl, rfl⟩

/-- Any index at or beyond the old length reads as a data-free node after
`newChild` (a fresh node or the out-of-range default). -/
lemma getNode_newChild_ge (t : LdapTree) (p : Nat) (nm : String) (i : Nat)
    (h : t.nodes.length ≤ i) :
    (getNode (newChild t p nm).1 i).data = none ∧
    (getNode (newChild t p nm).1 i).descendants = none ∧
    (getNode (newChild t p nm).1 i).toplevel = true := by
  unfold newChild
  by_cases hip : i = p
  · subst hip
    by_cases hlen : i < t.nodes.length + 1
    · rw [getNode_setNode_self _ _ _ (by simp; omega)]
      have hi : i = t.nodes.length := by omega
      subst hi
      rw [getNode_appendArena_new]
      exact ⟨rfl, rfl, rfl⟩
    · have hge : t.nodes.length + 1 ≤ i := by omega
      unfold setNode getNode
      simp only []
      rw [List.set_eq_of_length_le (by simp; omega)]
      rw [List.getD_eq_default _ _ (by simp; omega)]
      exact ⟨rfl, rfl, rfl⟩
  · rw [getNode_setNode_ne _ _ _ _ hip]
    rcases Nat.eq_or_lt_of_le h with hlen | hlen
    · rw [← hlen, getNode_appendArena_new]
      exact ⟨rfl, rfl, rfl⟩
    · unfold getNode
      rw [List.getD_eq_default _ _ (by simp; omega)]
      exact ⟨rfl, rfl, rfl⟩

/-- The fresh node's parent is the node it was hung under. -/
lemma getNode_newChild_new (t : LdapTree) (p : Nat) (nm : String) (hp : p < t.nodes.length) :
    getNode (newChild t p nm).1 t.nodes.length = newNode (some p) := by
  unfold newChild
  rw [getNode_setNode_ne _ _ _ _ (by omega : t.nodes.length ≠ p), getNode_appendArena_new]

/-- Out-of-range arena reads give the default node. -/
lemma getNode_oob (t : LdapTree) (i : Nat) (h : t.nodes.length ≤ i) :
    getNode t i = newNode none :=
  List.getD_eq_default _ _ h

/-- `newChild` keeps the children of every node other than the linked
parent (a fresh node has no children, like the out-of-range default). -/
lemma children_newChild_ne (t : LdapTree) (p : Nat) (nm : String) (i : Nat) (hip : i ≠ p) :
    (getNode (newChild t p nm).1 i).children = (getNode t i).children := by
  unfold newChild
  rw [getNode_setNode_ne _ _ _ _ hip]
  rcases lt_trichotomy i t.nodes.length with h | h | h
  · rw [getNode_appendArena _ _ _ h]
  · subst h
    rw [getNode_appendArena_new, getNode_oob t _ (le_refl _)]
    rfl
  · rw [getNode_oob t _ (le_of_lt h)]
    unfold getNode
    rw [List.getD_eq_default _ _ (by simp; omega)]

/-- The linked parent gains exactly the one new binding. -/
lemma children_newChild_self (t : LdapTree) (p : Nat) (nm : String) (hp : p < t.nodes.length) :
    (getNode (newChild t p nm).1 p).children =
      (getNode t p).children ++ [(nm, t.nodes.length)] := by
  unfold newChild
  rw [getNode_setNode_self _ _ _ (by simp; omega), getNode_appendArena _ _ _ hp]

/-- Child lookups that already succeed keep succeeding after `newChild`. -/
lemma lookupChild_newChild_mono (t : LdapTree) (p : Nat) (nm : String)
    {m : Nat} {s : String} {c : Nat} (h : lookupChild t m s = some c) :
    lookupChild (newChild t p nm).1 m s = some c := by
  unfold lookupChild at h ⊢
  by_cases hmp : m = p
  · subst hmp
    by_cases hp : m < t.nodes.length
    · rw [children_newChild_self _ _ _ hp, List.find?_append]
      obtain ⟨q, hq, hq2⟩ : ∃ q, List.find? (fun x => x.1 == s) (getNode t m).children = some q
          ∧ q.2 = c := by
        cases hfind : List.find? (fun x => x.1 == s) (getNode t m).children with
        | none => rw [hfind] at h; simp at h
        | some q => rw [hfind] at h; exact ⟨q, rfl, by simpa using h⟩
      rw [hq]
      show Option.map (fun p => p.2) (some q) = some c
      simpa using hq2
    · rw [getNode_oob t _ (Nat.le_of_not_lt hp)] at h
      simp [newNode] at h
  · rw [children_newChild_ne _ _ _ _ hmp]
    exact h

/-- Unfolded form of `parentsOk`. -/
lemma parentsOk_iff (t : LdapTree) : parentsOk t = true ↔
    ∀ i, i < t.nodes.length → i ≠ 0 → ∃ p, (getNode t i).parent = some p ∧ p < i := by
  unfold parentsOk
  rw [List.all_eq_true]
  constructor
  · intro h i hi hi0
    have hm := h i (List.mem_range.mpr hi)
    cases hpar : (getNode t i).parent with
    | none => rw [hpar] at hm; simp [hi0] at hm
    | some p =>
      rw [hpar] at hm
      simp [hi0] at hm
      exact ⟨p, rfl, hm⟩
  · intro h i hi
    rcases eq_or_ne i 0 with rfl | hi0
    · simp
    · obtain ⟨p, hp, hlt⟩ := h i (List.mem_range.mp hi) hi0
      rw [hp]
      simp [hlt, hi0]

/-- Unfolded form of `childrenOk`. -/
lemma childrenOk_iff (t : LdapTree) : childrenOk t = true ↔
    ∀ i, i < t.nodes.length → ∀ sc ∈ (getNode t i).children,
      0 < sc.2 ∧ sc.2 < t.nodes.length := by
  unfold childrenOk
  rw [List.all_eq_true]
  constructor
  · intro h i hi sc hsc
    have hm := h i (List.mem_range.mpr hi)
    rw [List.all_eq_true] at hm
    have := hm sc hsc
    simpa using this
  · intro h i hi
    rw [List.all_eq_true]
    intro sc hsc
    have := h i (List.mem_range.mp hi) sc hsc
    simpa using this

/-- Unfolded form of `dataNodesOk`. -/
lemma dataNodesOk_iff (t : LdapTree) : dataNodesOk t = true ↔
    ∀ n ∈ t.nodesWithData, 0 < n ∧ n < t.nodes.length := by
  unfold dataNodesOk
  rw [List.all_eq_true]
  constructor
  · intro h n hn
    have := h n hn
    simpa using this
  · intro h n hn
    have := h n hn
    simpa using this

/-- `newChild` preserves `childrenOk` (the fresh binding points at the
fresh in-bounds, non-root index). -/
lemma childrenOk_newChild (t : LdapTree) (p : Nat) (nm : String)
    (h0 : 0 < t.nodes.length) (hc : childrenOk t = true) :
    childrenOk (newChild t p nm).1 = true := by
  rw [childrenOk_iff] at hc ⊢
  intro i hi sc hsc
  rw [newChild_length] at hi ⊢
  by_cases hip : i = p
  · subst hip
    by_cases hp : i < t.nodes.length
    · rw [children_newChild_self _ _ _ hp] at hsc
      rcases List.mem_append.mp hsc with hold | hnew
      · have hb := hc i hp sc hold
        omega
      · simp at hnew
        subst hnew
        refine ⟨h0, ?_⟩
        show t.nodes.length < t.nodes.length + 1
        omega
    · have hip2 : i = t.nodes.length := by omega
      subst hip2
      unfold newChild at hsc
      rw [getNode_setNode_self _ _ _ (by simp) , getNode_appendArena_new] at hsc
      simp [newNode] at hsc
      subst hsc
      refine ⟨h0, ?_⟩
      show t.nodes.length < t.nodes.length + 1
      omega
  · rw [children_newChild_ne _ _ _ _ hip] at hsc
    by_cases hp : i < t.nodes.length
    · have hb := hc i hp sc hsc
      omega
    · rw [getNode_oob t _ (Nat.le_of_not_lt hp)] at hsc
      simp [newNode] at hsc

/-- `newChild` under an in-bounds parent preserves `parentsOk`. -/
lemma parentsOk_newChild (t : LdapTree) (p : Nat) (nm : String)
    (hp : p < t.nodes.length) (h : parentsOk t = true) :
    parentsOk (newChild t p nm).1 = true := by
  rw [parentsOk_iff] at h ⊢
  intro i hi hi0
  rw [newChild_length] at hi
  by_cases hilen : i < t.nodes.length
  · obtain ⟨q, hq, hlt⟩ := h i hilen hi0
    refine ⟨q, ?_, hlt⟩
    rw [(getNode_newChild_old t p nm i hilen).2.2.2, hq]
  · have : i = t.nodes.length := by omega
    subst this
    refine ⟨p, ?_, hp⟩
    rw [getNode_newChild_new t p nm hp]
    rfl

/-! ### Frame conditions of the descent loop -/

/-- The descent loop only ever appends fresh data-free nodes and new child
bindings: lengths grow, the registration sets and the flag are untouched,
every old node keeps its `data`/`descendants`/`toplevel`/`parent`, child
lookups stay valid, and every index at or past the old length is
data-free. -/
lemma descend_spec (path : List String) : ∀ (t : LdapTree) (n : Nat) (tl : Bool),
    t.nodes.length ≤ (descendLoop path t n tl).1.nodes.length ∧
    (descendLoop path t n tl).1.nodesWithData = t.nodesWithData ∧
    (descendLoop path t n tl).1.branches = t.branches ∧
    (descendLoop path t n tl).1.petrified = t.petrified ∧
    (∀ i, i < t.nodes.length →
      (getNode (descendLoop path t n tl).1 i).data = (getNode t i).data ∧
      (getNode (descendLoop path t n tl).1 i).descendants = (getNode t i).descendants ∧
      (getNode (descendLoop path t n tl).1 i).toplevel = (getNode t i).toplevel ∧
      (getNode (descendLoop path t n tl).1 i).parent = (getNode t i).parent) ∧
    (∀ m s c, lookupChild t m s = some c → lookupChild (descendLoop path t n tl).1 m s = some c) ∧
    (∀ i, t.nodes.length ≤ i →
      (getNode (descendLoop path t n tl).1 i).data = none ∧
      (getNode (descendLoop path t n tl).1 i).descendants = none) := by
  induction path with
  | nil =>
    intro t n tl
    refine ⟨le_refl _, rfl, rfl, rfl, fun i _ => ⟨rfl, rfl, rfl, rfl⟩, fun m s c h => h, ?_⟩
    intro i hi
    show (getNode t i).data = none ∧ (getNode t i).descendants = none
    rw [getNode_oob t i hi]
    exact ⟨rfl, rfl⟩
  | cons name rest ih =>
    intro t n tl
    simp only [descendLoop]
    cases hlu : lookupChild t n name with
    | some c => exact ih t c (tl && !truthyOpt (getNode t c).data)
    | none =>
      obtain ⟨hlen, hnwd, hbr, hpet, hfields, hmono, hge⟩ :=
        ih (newChild t n name).1 (newChild t n name).2
          (tl && !truthyOpt (getNode (newChild t n name).1 (newChild t n name).2).data)
      refine ⟨?_, ?_, ?_, ?_, ?_, ?_, ?_⟩
      · refine le_trans ?_ hlen
        simp
      · rw [hnwd]; rfl
      · rw [hbr]; rfl
      · rw [hpet]; rfl
      · intro i hi
        have hi1 : i < (newChild t n name).1.nodes.length := by simp; omega
        obtain ⟨hd, hdesc, htl, hpar⟩ := hfields i hi1
        obtain ⟨hd2, hdesc2, htl2, hpar2⟩ := getNode_newChild_old t n name i hi
        exact ⟨hd.trans hd2, hdesc.trans hdesc2, htl.trans htl2, hpar.trans hpar2⟩
      · intro m s c h
        exact hmono m s c (lookupChild_newChild_mono t n name h)
      · intro i hi
        by_cases hi1 : i < (newChild t n name).1.nodes.length
        · obtain ⟨hd, hdesc, _, _⟩ := hfields i hi1
          obtain ⟨hd2, hdesc2, _⟩ := getNode_newChild_ge t n name i hi
          exact ⟨hd.trans hd2, hdesc.trans hdesc2⟩
        · exact hge i (Nat.le_of_not_lt hi1)

/-- Looking up the binding just added by `newChild` (there was no binding
for that name before — the `except KeyError` arm only runs then). -/
lemma lookupChild_newChild_self (t : LdapTree) (n : Nat) (name : String)
    (hn : n < t.nodes.length) (hnone : lookupChild t n name = none) :
    lookupChild (newChild t n name).1 n name = some t.nodes.length := by
  unfold lookupChild at hnone ⊢
  rw [children_newChild_self _ _ _ hn, List.find?_append]
  have hf : List.find? (fun x => x.1 == name) (getNode t n).children = none := by
    cases hf : List.find? (fun x => x.1 == name) (getNode t n).children with
    | none => rfl
    | some q => rw [hf] at hnone; simp at hnone
  rw [hf]
  simp

/-- After the descent, the whole path resolves (by child lookups alone) to
the destination node: the skeleton materialized by the descent is present
in the resulting tree. -/
lemma descend_resolve (path : List String) : ∀ (t : LdapTree) (n : Nat) (tl : Bool),
    0 < t.nodes.length → childrenOk t = true → n < t.nodes.length →
    resolve (descendLoop path t n tl).1 path n = some (descendLoop path t n tl).2.1 := by
  induction path with
  | nil => intro t n tl _ _ _; rfl
  | cons name rest ih =>
    intro t n tl h0 hc hn
    simp only [descendLoop]
    cases hlu : lookupChild t n name with
    | some c =>
      have hcmem : c < t.nodes.length ∧ 0 < c := by
        unfold lookupChild at hlu
        cases hf : List.find? (fun x => x.1 == name) (getNode t n).children with
        | none => rw [hf] at hlu; simp at hlu
        | some q =>
          rw [hf] at hlu
          simp at hlu
          have hb := (childrenOk_iff t).mp hc n hn q (List.mem_of_find?_eq_some hf)
          omega
      have hres := ih t c (tl && !truthyOpt (getNode t c).data) h0 hc hcmem.1
      show resolve _ (name :: rest) n = _
      unfold resolve
      rw [(descend_spec rest t c _).2.2.2.2.2.1 n name c hlu]
      exact hres
    | none =>
      have hlu2 := lookupChild_newChild_self t n name hn hlu
      have hres := ih (newChild t n name).1 (newChild t n name).2
        (tl && !truthyOpt (getNode (newChild t n name).1 (newChild t n name).2).data)
        (by simp) (childrenOk_newChild t n name h0 hc) (by simp)
      show resolve _ (name :: rest) n = _
      unfold resolve
      rw [(descend_spec rest (newChild t n name).1 _ _).2.2.2.2.2.1 n name _ hlu2]
      exact hres

/-- Descending along a path that fully exists leaves the tree untouched
and ends at the node the path resolves to. -/
lemma descend_existing (path : List String) : ∀ (t : LdapTree) (n : Nat) (tl : Bool) (d : Nat),
    resolve t path n = some d →
    ∃ tl2, descendLoop path t n tl = (t, d, tl2) := by
  induction path with
  | nil =>
    intro t n tl d h
    have : n = d := by simpa [resolve] using h
    subst this
    exact ⟨tl, rfl⟩
  | cons name rest ih =>
    intro t n tl d h
    unfold resolve at h
    cases hlu : lookupChild t n name with
    | none => rw [hlu] at h; simp at h
    | some c =>
      rw [hlu] at h
      obtain ⟨tl2, htl2⟩ := ih t c (tl && !truthyOpt (getNode t c).data) d h
      refine ⟨tl2, ?_⟩
      simp only [descendLoop, hlu]
      exact htl2

/-- If no node met along the path has truthy data (in particular all newly
created skeleton nodes — they have no data), the running `toplevel` flag
survives the whole descent. -/
lemma descend_tl_true (path : List String) : ∀ (t : LdapTree) (n : Nat),
    0 < t.nodes.length → childrenOk t = true → n < t.nodes.length →
    (∀ i m, resolve t (path.take (i + 1)) n = some m → truthyOpt (getNode t m).data = false) →
    (descendLoop path t n true).2.2 = true := by
  induction path with
  | nil => intro t n _ _ _ _; rfl
  | cons name rest ih =>
    intro t n h0 hc hn hdat
    simp only [descendLoop]
    cases hlu : lookupChild t n name with
    | some c =>
      have hc0 : resolve t ((name :: rest).take 1) n = some c := by
        show resolve t [name] n = some c
        unfold resolve
        rw [hlu]
        rfl
      have htr : truthyOpt (getNode t c).data = false := hdat 0 c hc0
      show (descendLoop rest t c (true && !truthyOpt (getNode t c).data)).2.2 = true
      rw [htr]
      have hclen : c < t.nodes.length := by
        unfold lookupChild at hlu
        cases hf : List.find? (fun x => x.1 == name) (getNode t n).children with
        | none => rw [hf] at hlu; simp at hlu
        | some q =>
          rw [hf] at hlu
          simp at hlu
          have hb := (childrenOk_iff t).mp hc n hn q (List.mem_of_find?_eq_some hf)
          omega
      refine ih t c h0 hc hclen ?_
      intro i m hres
      refine hdat (i + 1) m ?_
      show resolve t (name :: rest.take (i + 1)) n = some m
      unfold resolve
      rw [hlu]
      exact hres
    | none =>
      have hdata : truthyOpt (getNode (newChild t n name).1 (newChild t n name).2).data = false := by
        rw [newChild_id, (getNode_newChild_ge t n name _ (le_refl _)).1]
        rfl
      show (descendLoop rest (newChild t n name).1 (newChild t n name).2
        (true && !truthyOpt (getNode (newChild t n name).1 (newChild t n name).2).data)).2.2 = true
      rw [hdata]
      refine ih (newChild t n name).1 (newChild t n name).2 (by simp)
        (childrenOk_newChild t n name h0 hc) (by simp) ?_
      intro i m hres
      cases hrt : rest.take (i + 1) with
      | nil =>
        rw [hrt] at hres
        have hm : m = (newChild t n name).2 := by simpa [resolve] using hres.symm
        subst hm
        exact hdata
      | cons s rest2 =>
        rw [hrt] at hres
        unfold resolve at hres
        have hlu2 : lookupChild (newChild t n name).1 (newChild t n name).2 s = none := by
          unfold lookupChild
          rw [newChild_id, children_newChild_ne t n name t.nodes.length (by omega)]
          rw [getNode_oob t _ (le_refl _)]
          rfl
        rw [hlu2] at hres
        simp at hres

/-- The descent preserves the structural invariants and lands on an
in-bounds destination; if the path is non-empty (or the start was not the
root) the destination is not the root. -/
lemma descend_wf (path : List String) : ∀ (t : LdapTree) (n : Nat) (tl : Bool),
    0 < t.nodes.length → parentsOk t = true → childrenOk t = true → n < t.nodes.length →
    0 < (descendLoop path t n tl).1.nodes.length ∧
    parentsOk (descendLoop path t n tl).1 = true ∧
    childrenOk (descendLoop path t n tl).1 = true ∧
    (descendLoop path t n tl).2.1 < (descendLoop path t n tl).1.nodes.length ∧
    ((0 < n ∨ path ≠ []) → 0 < (descendLoop path t n tl).2.1) := by
  induction path with
  | nil =>
    intro t n tl h0 hp hc hn
    refine ⟨h0, hp, hc, hn, ?_⟩
    rintro (h | h)
    · exact h
    · exact absurd rfl h
  | cons name rest ih =>
    intro t n tl h0 hp hc hn
    simp only [descendLoop]
    cases hlu : lookupChild t n name with
    | some c =>
      have hcb : 0 < c ∧ c < t.nodes.length := by
        unfold lookupChild at hlu
        cases hf : List.find? (fun x => x.1 == name) (getNode t n).children with
        | none => rw [hf] at hlu; simp at hlu
        | some q =>
          rw [hf] at hlu
          simp at hlu
          have hb := (childrenOk_iff t).mp hc n hn q (List.mem_of_find?_eq_some hf)
          omega
      obtain ⟨r0, rp, rc, rb, rpos⟩ := ih t c (tl && !truthyOpt (getNode t c).data) h0 hp hc hcb.2
      exact ⟨r0, rp, rc, rb, fun _ => rpos (Or.inl hcb.1)⟩
    | none =>
      obtain ⟨r0, rp, rc, rb, rpos⟩ := ih (newChild t n name).1 (newChild t n name).2
        (tl && !truthyOpt (getNode (newChild t n name).1 (newChild t n name).2).data)
        (by simp) (parentsOk_newChild t n name hn hp) (childrenOk_newChild t n name h0 hc)
        (by simp)
      exact ⟨r0, rp, rc, rb, fun _ => rpos (Or.inl (by simp [h0]))⟩

/-- Mutations that keep `parent` keep `parentsOk`. -/
lemma parentsOk_setNode (t : LdapTree) (i : Nat) (f : LdapNode → LdapNode)
    (hf : ∀ nd, (f nd).parent = nd.parent) (h : parentsOk t = true) :
    parentsOk (setNode t i f) = true := by
  rw [parentsOk_iff] at h ⊢
  intro j hj hj0
  rw [setNode_length] at hj
  obtain ⟨p, hp, hlt⟩ := h j hj hj0
  by_cases hji : j = i
  · subst hji
    rw [getNode_setNode_self _ _ _ hj, hf, hp]
    exact ⟨p, rfl, hlt⟩
  · rw [getNode_setNode_ne _ _ _ _ hji, hp]
    exact ⟨p, rfl, hlt⟩

/-- Mutations that keep `children` keep `childrenOk`. -/
lemma childrenOk_setNode (t : LdapTree) (i : Nat) (f : LdapNode → LdapNode)
    (hf : ∀ nd, (f nd).children = nd.children) (h : childrenOk t = true) :
    childrenOk (setNode t i f) = true := by
  rw [childrenOk_iff] at h ⊢
  intro j hj sc hsc
  rw [setNode_length] at hj ⊢
  by_cases hji : j = i
  · subst hji
    rw [getNode_setNode_self _ _ _ hj, hf] at hsc
    exact h j hj sc hsc
  · rw [getNode_setNode_ne _ _ _ _ hji] at hsc
    exact h j hj sc hsc

/-- `add_node_core` characterized in terms of the factored-out pieces
(definitional). -/
lemma add_node_core_eq (t : LdapTree) (e : Entry) :
    add_node_core t e =
      if t.petrified then (t, .error .treePetrifiedError)
      else if truthyOpt (getNode (descendLoop (dn_to_path e.dn) t 0 true).1
          (descendLoop (dn_to_path e.dn) t 0 true).2.1).data then
        ((descendLoop (dn_to_path e.dn) t 0 true).1,
          .error (.typeError "list_reverseiterator object is not reversible"))
      else (applyData (descendLoop (dn_to_path e.dn) t 0 true) e,
        .ok (descendLoop (dn_to_path e.dn) t 0 true).2.1) := rfl

/-- `add_node` characterized in terms of `registerBranch` (definitional). -/
lemma add_node_eq (t : LdapTree) (e : Entry) (is_leaf : Bool) :
    add_node t e is_leaf =
      match add_node_core t e with
      | (t1, .error exc) => (t1, .error exc)
      | (t1, .ok nid) =>
        if !is_leaf then (registerBranch t1 nid, .ok none) else (t1, .ok none) := rfl

@[simp] lemma applyData_length (r : LdapTree × Nat × Bool) (e : Entry) :
    (applyData r e).nodes.length = r.1.nodes.length := by
  simp [applyData]

@[simp] lemma applyData_branches (r : LdapTree × Nat × Bool) (e : Entry) :
    (applyData r e).branches = r.1.branches := rfl

@[simp] lemma applyData_petrified (r : LdapTree × Nat × Bool) (e : Entry) :
    (applyData r e).petrified = r.1.petrified := rfl

@[simp] lemma applyData_nodesWithData (r : LdapTree × Nat × Bool) (e : Entry) :
    (applyData r e).nodesWithData = insertSet r.2.1 r.1.nodesWithData := rfl

lemma getNode_applyData (r : LdapTree × Nat × Bool) (e : Entry) (i : Nat) :
    getNode (applyData r e) i =
      getNode (setNode r.1 r.2.1 (fun n => { n with data := some e, toplevel := r.2.2 })) i := rfl

@[simp] lemma registerBranch_length (t1 : LdapTree) (nid : Nat) :
    (registerBranch t1 nid).nodes.length = t1.nodes.length := by
  simp [registerBranch]

@[simp] lemma registerBranch_nodesWithData (t1 : LdapTree) (nid : Nat) :
    (registerBranch t1 nid).nodesWithData = t1.nodesWithData := rfl

@[simp] lemma registerBranch_branches (t1 : LdapTree) (nid : Nat) :
    (registerBranch t1 nid).branches = insertSet nid t1.branches := rfl

@[simp] lemma registerBranch_petrified (t1 : LdapTree) (nid : Nat) :
    (registerBranch t1 nid).petrified = t1.petrified := rfl

lemma getNode_registerBranch (t1 : LdapTree) (nid : Nat) (i : Nat) :
    getNode (registerBranch t1 nid) i =
      getNode (setNode t1 nid (fun n => { n with descendants := some [] })) i := rfl

/-- Destructured form of `wfB`. -/
lemma wfB_iff (t : LdapTree) : wfB t = true ↔
    0 < t.nodes.length ∧ parentsOk t = true ∧ dataNodesOk t = true ∧ childrenOk t = true := by
  unfold wfB
  simp [and_assoc]

/-- `_add_node` preserves well-formedness when the normalized path is
non-empty (as every parser-produced DN guarantees), and a successfully
returned destination is a proper in-bounds node. -/
lemma add_node_core_wf (t : LdapTree) (e : Entry)
    (hwf : wfB t = true) (hpath : dn_to_path e.dn ≠ []) :
    wfB (add_node_core t e).1 = true ∧
    ∀ d, (add_node_core t e).2 = .ok d →
      0 < d ∧ d < (add_node_core t e).1.nodes.length := by
  obtain ⟨h0, hp, hd, hc⟩ := (wfB_iff t).mp hwf
  rw [add_node_core_eq]
  by_cases hpet : t.petrified
  · rw [if_pos hpet]
    exact ⟨hwf, by intro d hcontra; simp at hcontra⟩
  · rw [if_neg hpet]
    set R : LdapTree × Nat × Bool := descendLoop (dn_to_path e.dn) t 0 true with hR
    obtain ⟨r0, rp, rc, rb, rpos⟩ := descend_wf (dn_to_path e.dn) t 0 true h0 hp hc h0
    obtain ⟨rlen, rnwd, _, _, _, _, _⟩ := descend_spec (dn_to_path e.dn) t 0 true
    rw [← hR] at r0 rp rc rb rpos rlen rnwd
    have hdata : ∀ n ∈ R.1.nodesWithData, 0 < n ∧ n < R.1.nodes.length := by
      intro n hn
      rw [rnwd] at hn
      have := (dataNodesOk_iff t).mp hd n hn
      omega
    have rwf : wfB R.1 = true :=
      (wfB_iff _).mpr ⟨r0, rp, (dataNodesOk_iff _).mpr hdata, rc⟩
    by_cases hconf : truthyOpt (getNode R.1 R.2.1).data = true
    · rw [if_pos hconf]
      exact ⟨rwf, by intro d hcontra; simp at hcontra⟩
    · rw [if_neg hconf]
      have hdest : 0 < R.2.1 := rpos (Or.inr hpath)
      constructor
      · rw [wfB_iff]
        refine ⟨by simpa using r0, ?_, ?_, ?_⟩
        · have hps := parentsOk_setNode R.1 R.2.1
            (fun n => { n with data := some e, toplevel := R.2.2 }) (fun nd => rfl) rp
          rw [parentsOk_iff] at hps ⊢
          intro i hi hi0
          simp only [applyData_length] at hi
          obtain ⟨q, hq, hlt⟩ := hps i (by simpa using hi) hi0
          exact ⟨q, by rw [getNode_applyData]; exact hq, hlt⟩
        · rw [dataNodesOk_iff]
          intro n hn
          simp only [applyData_nodesWithData, applyData_length] at hn ⊢
          rcases mem_insertSet.mp hn with rfl | hn2
          · exact ⟨hdest, rb⟩
          · exact hdata n hn2
        · have hcs := childrenOk_setNode R.1 R.2.1
            (fun n => { n with data := some e, toplevel := R.2.2 }) (fun nd => rfl) rc
          rw [childrenOk_iff] at hcs ⊢
          intro i hi sc hsc
          simp only [applyData_length] at hi ⊢
          have hres := hcs i (by simpa using hi) sc (by rw [← getNode_applyData]; exact hsc)
          simpa using hres
      · intro d hok
        simp only [Except.ok.injEq] at hok
        subst hok
        simpa using ⟨hdest, rb⟩

/-- `registerBranch` preserves well-formedness. -/
lemma wfB_registerBranch (t1 : LdapTree) (nid : Nat) (h : wfB t1 = true) :
    wfB (registerBranch t1 nid) = true := by
  obtain ⟨h0, hp, hd, hc⟩ := (wfB_iff t1).mp h
  rw [wfB_iff]
  refine ⟨by simpa using h0, ?_, ?_, ?_⟩
  · have hps := parentsOk_setNode t1 nid (fun n => { n with descendants := some [] })
      (fun nd => rfl) hp
    rw [parentsOk_iff] at hps ⊢
    intro i hi hi0
    simp only [registerBranch_length] at hi
    obtain ⟨q, hq, hlt⟩ := hps i (by simpa using hi) hi0
    exact ⟨q, by rw [getNode_registerBranch]; exact hq, hlt⟩
  · rw [dataNodesOk_iff] at hd ⊢
    intro n hn
    simp only [registerBranch_nodesWithData] at hn
    simp only [registerBranch_length]
    exact hd n hn
  · have hcs := childrenOk_setNode t1 nid (fun n => { n with descendants := some [] })
      (fun nd => rfl) hc
    rw [childrenOk_iff] at hcs ⊢
    intro i hi sc hsc
    simp only [registerBranch_length] at hi ⊢
    have hres := hcs i (by simpa using hi) sc (by rw [← getNode_registerBranch]; exact hsc)
    simpa using hres

/-- `add_node` preserves well-formedness (with parser-produced DNs). -/
lemma add_node_wf (t : LdapTree) (e : Entry) (is_leaf : Bool)
    (hwf : wfB t = true) (hpath : dn_to_path e.dn ≠ []) :
    wfB (add_node t e is_leaf).1 = true := by
  rw [add_node_eq]
  obtain ⟨hwf1, _⟩ := add_node_core_wf t e hwf hpath
  cases hr : add_node_core t e with
  | mk t1 res =>
    rw [hr] at hwf1
    cases res with
    | error exc => exact hwf1
    | ok nid =>
      cases is_leaf with
      | true => exact hwf1
      | false => exact wfB_registerBranch t1 nid hwf1

/-- Inversion: a `TypeError` out of `_add_node` comes from the
data-conflict branch, and the returned state is exactly the descended
tree. -/
lemma add_node_core_conflict_inv (t : LdapTree) (e : Entry) (t' : LdapTree) (msg : String)
    (h : add_node_core t e = (t', .error (.typeError msg))) :
    t.petrified = false ∧ t' = (descendLoop (dn_to_path e.dn) t 0 true).1 ∧
    truthyOpt (getNode t' (descendLoop (dn_to_path e.dn) t 0 true).2.1).data = true := by
  rw [add_node_core_eq] at h
  by_cases hpet : t.petrified
  · rw [if_pos hpet] at h
    simp at h
  · rw [if_neg hpet] at h
    by_cases hconf : truthyOpt (getNode (descendLoop (dn_to_path e.dn) t 0 true).1
        (descendLoop (dn_to_path e.dn) t 0 true).2.1).data = true
    · rw [if_pos hconf] at h
      have ht' : t' = (descendLoop (dn_to_path e.dn) t 0 true).1 := by
        have := congrArg Prod.fst h
        exact this.symm
      refine ⟨by simpa using hpet, ht', ?_⟩
      rw [ht']
      exact hconf
    · rw [if_neg hconf] at h
      simp at h

/-- Inversion: a successful `_add_node` comes from the success branch. -/
lemma add_node_core_success_inv (t : LdapTree) (e : Entry) (t' : LdapTree) (d : Nat)
    (h : add_node_core t e = (t', .ok d)) :
    t.petrified = false ∧ d = (descendLoop (dn_to_path e.dn) t 0 true).2.1 ∧
    t' = applyData (descendLoop (dn_to_path e.dn) t 0 true) e ∧
    truthyOpt (getNode (descendLoop (dn_to_path e.dn) t 0 true).1 d).data = false := by
  rw [add_node_core_eq] at h
  by_cases hpet : t.petrified
  · rw [if_pos hpet] at h
    simp at h
  · rw [if_neg hpet] at h
    by_cases hconf : truthyOpt (getNode (descendLoop (dn_to_path e.dn) t 0 true).1
        (descendLoop (dn_to_path e.dn) t 0 true).2.1).data = true
    · rw [if_pos hconf] at h
      simp at h
    · rw [if_neg hconf] at h
      have hd : d = (descendLoop (dn_to_path e.dn) t 0 true).2.1 := by
        have := congrArg Prod.snd h
        simpa using this.symm
      have ht' : t' = applyData (descendLoop (dn_to_path e.dn) t 0 true) e := by
        have := congrArg Prod.fst h
        exact this.symm
      refine ⟨by simpa using hpet, hd, ht', ?_⟩
      rw [Bool.not_eq_true] at hconf
      rw [hd]
      exact hconf

/-- `resolve` reads only `children`, so it is invariant under mutations
that keep all `children`. -/
lemma resolve_congr_children (t t' : LdapTree)
    (h : ∀ i, (getNode t' i).children = (getNode t i).children) :
    ∀ (path : List String) (n : Nat), resolve t' path n = resolve t path n := by
  intro path
  induction path with
  | nil => intro n; rfl
  | cons s rest ih =>
    intro n
    show (match lookupChild t' n s with
          | some c => resolve t' rest c
          | none => none) =
         (match lookupChild t n s with
          | some c => resolve t rest c
          | none => none)
    have hlu : lookupChild t' n s = lookupChild t n s := by
      unfold lookupChild
      rw [h n]
    rw [hlu]
    cases lookupChild t n s with
    | none => rfl
    | some c => exact ih c

/-- `applyData` keeps all children. -/
lemma children_applyData (r : LdapTree × Nat × Bool) (e : Entry) (i : Nat) :
    (getNode (applyData r e) i).children = (getNode r.1 i).children := by
  rw [getNode_applyData]
  by_cases hi : i = r.2.1
  · subst hi
    by_cases hlen : r.2.1 < r.1.nodes.length
    · rw [getNode_setNode_self _ _ _ hlen]
    · unfold setNode getNode
      rw [List.set_eq_of_length_le (by omega)]
  · rw [getNode_setNode_ne _ _ _ _ hi]

/-- `registerBranch` keeps all children. -/
lemma children_registerBranch (t1 : LdapTree) (nid : Nat) (i : Nat) :
    (getNode (registerBranch t1 nid) i).children = (getNode t1 i).children := by
  rw [getNode_registerBranch]
  by_cases hi : i = nid
  · subst hi
    by_cases hlen : i < t1.nodes.length
    · rw [getNode_setNode_self _ _ _ hlen]
    · unfold setNode getNode
      rw [List.set_eq_of_length_le (by omega)]
  · rw [getNode_setNode_ne _ _ _ _ hi]

/-! ### Path normalization: sorting makes pair order irrelevant -/

lemma strSort_perm_eq (l1 l2 : List String) (h : l1.Perm l2) : strSort l1 = strSort l2 := by
  unfold strSort
  refine List.eq_of_perm_of_sorted ?_ (List.sorted_insertionSort _ l1)
    (List.sorted_insertionSort _ l2)
  exact (List.perm_insertionSort _ l1).trans (h.trans (List.perm_insertionSort _ l2).symm)

lemma dnStep_flush (st : List String × List String) (c : DNComp) (h : c.2.2 ≠ "+") :
    dnStep st c =
      ([], st.2 ++ [String.intercalate "+" (strSort (st.1 ++ [c.1 ++ "=" ++ c.2.1]))]) := by
  simp only [dnStep]
  rw [if_pos h]

lemma dnStep_acc (st : List String × List String) (c : DNComp) (h : ¬(c.2.2 ≠ "+")) :
    dnStep st c = (st.1 ++ [c.1 ++ "=" ++ c.2.1], st.2) := by
  simp only [dnStep]
  rw [if_neg h]

/-- Effect of one whole multi-valued level on the `_dn_to_path` fold state:
the accumulated pairs are flushed as one sorted segment. -/
lemma foldl_dnStep_mkLevel (sep : String) (hsep : sep ≠ "+") :
    ∀ (l : List (String × String)), l ≠ [] → ∀ (rdn path : List String),
    (mkLevel l sep).foldl dnStep (rdn, path) =
      ([], path ++ [String.intercalate "+" (strSort (rdn ++ l.map pairStr))]) := by
  intro l
  induction l with
  | nil => intro h; exact absurd rfl h
  | cons kv rest ih =>
    intro _ rdn path
    cases rest with
    | nil =>
      show List.foldl dnStep (rdn, path) [(kv.1, kv.2, sep)] = _
      rw [List.foldl_cons, List.foldl_nil, dnStep_flush _ _ hsep]
      simp [pairStr]
    | cons kv2 rest2 =>
      show List.foldl dnStep (rdn, path) ((kv.1, kv.2, "+") :: mkLevel (kv2 :: rest2) sep) = _
      rw [List.foldl_cons, dnStep_acc _ _ (by simp)]
      rw [ih (by simp) (rdn ++ [kv.1 ++ "=" ++ kv.2]) path]
      simp [pairStr, List.append_assoc]

/-! ### Basic facts about `petrify` and `iterate` -/

lemma petrify_petrified (t t' : LdapTree) (h : petrify t = .ok t') : t'.petrified = true := by
  unfold petrify at h
  cases hf : petrifyFold t.nodesWithData t with
  | error exc => rw [hf] at h; simp at h
  | ok t1 =>
    rw [hf] at h
    simp only [Except.ok.injEq] at h
    rw [← h]

lemma iterate_ok_inv (t t' : LdapTree) (br : List Nat) (h : iterate t = .ok (t', br)) :
    br = t'.branches ∧ t'.petrified = true := by
  unfold iterate at h
  by_cases hpet : t.petrified
  · rw [hpet] at h
    simp at h
    obtain ⟨h1, h2⟩ := h
    subst h1
    exact ⟨h2.symm, hpet⟩
  · rw [Bool.not_eq_true] at hpet
    rw [hpet] at h
    simp only [Bool.not_false, if_pos] at h
    cases hf : petrify t with
    | error exc => rw [hf] at h; simp at h
    | ok t1 =>
      rw [hf] at h
      simp only [Except.ok.injEq, Prod.mk.injEq] at h
      obtain ⟨h1, h2⟩ := h
      subst h1
      exact ⟨h2.symm, petrify_petrified t _ hf⟩

/-! ### The upward walk of `_petrify` -/

/-- The walk reads only `parent`, `data` and the presence of
`descendants`, so it is invariant under mutations preserving those. -/
lemma walkLoop_congr (t t' : LdapTree)
    (hf : ∀ i, (getNode t' i).parent = (getNode t i).parent ∧
        (getNode t' i).data = (getNode t i).data ∧
        (getNode t' i).descendants.isSome = (getNode t i).descendants.isSome) :
    ∀ (fuel : Nat) (par : Option Nat), walkLoop t' fuel par = walkLoop t fuel par := by
  intro fuel
  induction fuel with
  | zero => intro par; rfl
  | succ fuel ih =>
    intro par
    cases par with
    | none => rfl
    | some p =>
      show (if p = 0 then Except.ok none
            else if qualifies t' p then Except.ok (some p)
            else walkLoop t' fuel (getNode t' p).parent) =
          (if p = 0 then Except.ok none
            else if qualifies t p then Except.ok (some p)
            else walkLoop t fuel (getNode t p).parent)
      have hq : qualifies t' p = qualifies t p := by
        unfold qualifies
        rw [(hf p).2.1, (hf p).2.2]
      rw [hq, (hf p).1]
      by_cases hp0 : p = 0
      · rw [if_pos hp0, if_pos hp0]
      · rw [if_neg hp0, if_neg hp0]
        by_cases hqp : qualifies t p = true
        · rw [if_pos hqp, if_pos hqp]
        · rw [if_neg hqp, if_neg hqp]
          exact ih _

/-- `ancestorsAux` does not depend on the fuel once the fuel exceeds the
start index (parent indices strictly decrease). -/
lemma anc_fuel (t : LdapTree) (hp : parentsOk t = true) :
    ∀ (f1 f2 p : Nat), p < f1 → p < f2 → p < t.nodes.length →
      ancestorsAux t f1 (some p) = ancestorsAux t f2 (some p) := by
  intro f1
  induction f1 with
  | zero => intro f2 p h; omega
  | succ f1 ih =>
    intro f2 p hp1 hp2 hplen
    cases f2 with
    | zero => omega
    | succ f2 =>
      show (if p = 0 then [] else p :: ancestorsAux t f1 (getNode t p).parent) =
          (if p = 0 then [] else p :: ancestorsAux t f2 (getNode t p).parent)
      by_cases hp0 : p = 0
      · rw [if_pos hp0, if_pos hp0]
      · rw [if_neg hp0, if_neg hp0]
        obtain ⟨q, hq, hqlt⟩ := (parentsOk_iff t).mp hp p hplen hp0
        rw [hq]
        have := ih f2 q (by omega) (by omega) (by omega)
        rw [this]

/-- Every member of the ancestor chain is an in-bounds non-root index. -/
lemma anc_mem (t : LdapTree) (hp : parentsOk t = true) :
    ∀ (fuel q : Nat), q < t.nodes.length →
      ∀ x ∈ ancestorsAux t fuel (some q), 0 < x ∧ x < t.nodes.length := by
  intro fuel
  induction fuel with
  | zero => intro q _ x hx; simp [ancestorsAux] at hx
  | succ fuel ih =>
    intro q hqlen x hx
    by_cases hq0 : q = 0
    · rw [show ancestorsAux t (fuel + 1) (some q) = (if q = 0 then []
        else q :: ancestorsAux t fuel (getNode t q).parent) from rfl, if_pos hq0] at hx
      simp at hx
    · rw [show ancestorsAux t (fuel + 1) (some q) = (if q = 0 then []
        else q :: ancestorsAux t fuel (getNode t q).parent) from rfl, if_neg hq0] at hx
      rcases List.mem_cons.mp hx with rfl | hx2
      · exact ⟨by omega, hqlen⟩
      · obtain ⟨q2, hq2, hq2lt⟩ := (parentsOk_iff t).mp hp q hqlen hq0
        rw [hq2] at hx2
        exact ih q2 (by omega) x hx2

/-- The walk computes exactly the first qualifying ancestor on the
strictly-upward chain (skipping non-qualifying ancestors), and it never
errors nor exhausts its fuel when started below the fuel bound. -/
lemma walk_eq_find (t : LdapTree) (hp : parentsOk t = true) :
    ∀ (fuel p : Nat), p < fuel → p < t.nodes.length →
      walkLoop t fuel (some p) =
        .ok ((ancestorsAux t fuel (some p)).find? (qualifies t)) := by
  intro fuel
  induction fuel with
  | zero => intro p h; omega
  | succ fuel ih =>
    intro p hpf hplen
    rw [show walkLoop t (fuel + 1) (some p) = (if p = 0 then Except.ok none
        else if qualifies t p then Except.ok (some p)
        else walkLoop t fuel (getNode t p).parent) from rfl]
    rw [show ancestorsAux t (fuel + 1) (some p) = (if p = 0 then []
        else p :: ancestorsAux t fuel (getNode t p).parent) from rfl]
    by_cases hp0 : p = 0
    · rw [if_pos hp0, if_pos hp0]
      rfl
    · rw [if_neg hp0, if_neg hp0]
      by_cases hqp : qualifies t p = true
      · rw [if_pos hqp, List.find?_cons_of_pos _ hqp]
      · rw [if_neg hqp, List.find?_cons_of_neg _ (by simpa using hqp)]
        obtain ⟨q, hq, hqlt⟩ := (parentsOk_iff t).mp hp p hplen hp0
        rw [hq]
        exact ih q (by omega) (by omega)

/-- One step of the `_petrify` loop preserves the simulation invariant and
cannot fail. -/
lemma petrifyNode_sim (t0 : LdapTree) (hp0 : parentsOk t0 = true)
    (P : List Nat) (s : LdapTree) (n : Nat) (hn0 : 0 < n) (hnlen : n < t0.nodes.length)
    (hinv : simInv t0 P s) :
    ∃ s1, petrifyNode s n = .ok s1 ∧ simInv t0 (P ++ [n]) s1 := by
  obtain ⟨hlen, hnwd, hbr, hpet, hfields, htl, hdesc⟩ := hinv
  have hwalk : ∀ par, walkLoop s s.nodes.length par = walkLoop t0 t0.nodes.length par := by
    intro par
    rw [hlen, walkLoop_congr t0 s hfields]
  have hpar_n : (getNode s n).parent = (getNode t0 n).parent := (hfields n).1
  have hmemP : ∀ i x : Nat, i ≠ x → (i ∈ P ++ [x] ↔ i ∈ P) := by
    intro i x hix
    simp [List.mem_append, hix]
  unfold petrifyNode
  by_cases htln : (getNode s n).toplevel = true
  case neg =>
    rw [if_neg htln]
    have htlnf : ¬((getNode t0 n).toplevel = true ∧ ¬(n ∈ P ∧ foundB t0 n)) := by
      intro hcon
      exact htln ((htl n).mpr hcon)
    refine ⟨s, rfl, hlen, hnwd, hbr, hpet, hfields, ?_, ?_⟩
    · intro i
      by_cases hin : i = n
      · subst hin
        constructor
        · intro hcon
          exact absurd hcon htln
        · rintro ⟨horig, hnot⟩
          exfalso
          refine htlnf ⟨horig, ?_⟩
          intro ⟨hiP, hfound⟩
          exact hnot ⟨List.mem_append.mpr (Or.inl hiP), hfound⟩
      · rw [htl i, hmemP i n hin]
    · intro b x
      by_cases hxn : x = n
      · subst hxn
        rw [hdesc b x]
        constructor
        · rintro (h | ⟨hxP, hT, hW⟩)
          · exact Or.inl h
          · exact Or.inr ⟨List.mem_append.mpr (Or.inl hxP), hT, hW⟩
        · rintro (h | ⟨hxP, hT, hW⟩)
          · exact Or.inl h
          · refine Or.inr ⟨?_, hT, hW⟩
            by_contra hxnP
            refine htlnf ⟨hT, ?_⟩
            intro ⟨hiP, _⟩
            exact hxnP hiP
      · rw [hdesc b x, hmemP x n hxn]
  case pos =>
    rw [if_pos htln]
    obtain ⟨horig, hnPfound⟩ := (htl n).mp htln
    obtain ⟨q, hq, hqlt⟩ := (parentsOk_iff t0).mp hp0 n hnlen (by omega)
    have hww : walkLoop s s.nodes.length (getNode s n).parent =
        Except.ok ((ancestorsAux t0 t0.nodes.length (some q)).find? (qualifies t0)) := by
      rw [hpar_n, hwalk, hq, walk_eq_find t0 hp0 t0.nodes.length q (by omega) (by omega)]
    have hWn : walkLoop t0 t0.nodes.length (getNode t0 n).parent =
        Except.ok ((ancestorsAux t0 t0.nodes.length (some q)).find? (qualifies t0)) := by
      rw [hq, walk_eq_find t0 hp0 t0.nodes.length q (by omega) (by omega)]
    cases hfind : (ancestorsAux t0 t0.nodes.length (some q)).find? (qualifies t0) with
    | none =>
      rw [hfind] at hww hWn
      rw [hww]
      have hnofound : ¬ foundB t0 n := by
        rintro ⟨p, hpw⟩
        rw [hWn] at hpw
        simp at hpw
      refine ⟨s, rfl, hlen, hnwd, hbr, hpet, hfields, ?_, ?_⟩
      · intro i
        by_cases hin : i = n
        · subst hin
          rw [htl i]
          constructor
          · rintro ⟨ho, hno⟩
            refine ⟨ho, ?_⟩
            rintro ⟨_, hf⟩
            exact hnofound hf
          · rintro ⟨ho, hno⟩
            refine ⟨ho, ?_⟩
            rintro ⟨hiP, hf⟩
            exact hnofound hf
        · rw [htl i, hmemP i n hin]
      · intro b x
        by_cases hxn : x = n
        · subst hxn
          rw [hdesc b x]
          constructor
          · rintro (h | ⟨hxP, hT, hW⟩)
            · exact Or.inl h
            · exact Or.inr ⟨List.mem_append.mpr (Or.inl hxP), hT, hW⟩
          · rintro (h | ⟨hxP, hT, hW⟩)
            · exact Or.inl h
            · exact absurd ⟨_, hW⟩ hnofound
        · rw [hdesc b x, hmemP x n hxn]
    | some p =>
      rw [hfind] at hww hWn
      rw [hww]
      have hfound : foundB t0 n := ⟨p, hWn⟩
      have hnP : n ∉ P := fun hmem => hnPfound ⟨hmem, hfound⟩
      have hpb : 0 < p ∧ p < t0.nodes.length :=
        anc_mem t0 hp0 t0.nodes.length q (by omega) p (List.mem_of_find?_eq_some hfind)
      have hqual : qualifies t0 p = true := List.find?_some hfind
      have hslen_n : n < s.nodes.length := by omega
      have hslen_p : p < s.nodes.length := by omega
      refine ⟨_, rfl, ?_⟩
      -- the mutated state
      constructor
      · simp [hlen]
      constructor
      · simpa using hnwd
      constructor
      · simpa using hbr
      constructor
      · simpa using hpet
      constructor
      · -- parent / data / descendants-presence untouched
        intro i
        by_cases hip : i = p
        · subst hip
          rw [getNode_setNode_self _ _ _ (by simpa using hslen_p)]
          by_cases hin : i = n
          · subst hin
            rw [getNode_setNode_self _ _ _ hslen_n]
            refine ⟨(hfields i).1, (hfields i).2.1, ?_⟩
            simp [Option.isSome_map]
            exact (hfields i).2.2
          · rw [getNode_setNode_ne _ _ _ _ hin]
            refine ⟨(hfields i).1, (hfields i).2.1, ?_⟩
            simp [Option.isSome_map]
            exact (hfields i).2.2
        · rw [getNode_setNode_ne _ _ _ _ hip]
          by_cases hin : i = n
          · subst hin
            rw [getNode_setNode_self _ _ _ hslen_n]
            exact ⟨(hfields i).1, (hfields i).2.1, (hfields i).2.2⟩
          · rw [getNode_setNode_ne _ _ _ _ hin]
            exact hfields i
      constructor
      · -- toplevel flags
        intro i
        by_cases hin : i = n
        · subst hin
          have htop : (getNode (setNode (setNode s i (fun nd => { nd with toplevel := false })) p
              (fun nd => { nd with descendants := nd.descendants.map (insertSet i) })) i).toplevel
                = false := by
            by_cases hip : i = p
            · rw [← hip, getNode_setNode_self _ _ _ (by simpa using hslen_n),
                getNode_setNode_self _ _ _ hslen_n]
            · rw [getNode_setNode_ne _ _ _ _ hip, getNode_setNode_self _ _ _ hslen_n]
          rw [htop]
          constructor
          · intro hcon
            simp at hcon
          · rintro ⟨ho, hno⟩
            exact absurd ⟨List.mem_append.mpr (Or.inr (by simp)), hfound⟩ hno
        · have htop : (getNode (setNode (setNode s n (fun nd => { nd with toplevel := false })) p
              (fun nd => { nd with descendants := nd.descendants.map (insertSet n) })) i).toplevel
                = (getNode s i).toplevel := by
            by_cases hip : i = p
            · rw [← hip, getNode_setNode_self _ _ _ (by
                  rw [← hip] at hslen_p
                  simpa using hslen_p), getNode_setNode_ne _ _ _ _ hin]
            · rw [getNode_setNode_ne _ _ _ _ hip, getNode_setNode_ne _ _ _ _ hin]
          rw [htop, htl i, hmemP i n hin]
      · -- descendants contents
        have hdesc_first : ∀ j, (getNode (setNode s n
            (fun nd => { nd with toplevel := false })) j).descendants =
              (getNode s j).descendants := by
          intro j
          by_cases hjn : j = n
          · rw [hjn, getNode_setNode_self _ _ _ hslen_n]
          · rw [getNode_setNode_ne _ _ _ _ hjn]
        have hdesc_s1 : ∀ j, (getNode (setNode (setNode s n
            (fun nd => { nd with toplevel := false })) p
              (fun nd => { nd with descendants := nd.descendants.map (insertSet n) })) j).descendants =
              (if j = p then (getNode s j).descendants.map (insertSet n)
               else (getNode s j).descendants) := by
          intro j
          by_cases hjp : j = p
          · rw [if_pos hjp, hjp, getNode_setNode_self _ _ _ (by simpa using hslen_p),
              hdesc_first]
          · rw [if_neg hjp, getNode_setNode_ne _ _ _ _ hjp, hdesc_first]
        intro b x
        by_cases hbp : b = p
        · have hds : ∃ ds, (getNode s b).descendants = some ds := by
            have hq2 : (getNode t0 b).descendants.isSome = true := by
              have hq3 := hqual
              unfold qualifies at hq3
              simp at hq3
              rw [hbp]
              exact hq3.2
            have hss := (hfields b).2.2
            rw [hq2] at hss
            exact Option.isSome_iff_exists.mp hss
          obtain ⟨ds, hds⟩ := hds
          have hLHS : descList (setNode (setNode s n
              (fun nd => { nd with toplevel := false })) p
                (fun nd => { nd with descendants := nd.descendants.map (insertSet n) })) b
              = insertSet n ds := by
            unfold descList
            rw [hdesc_s1 b, if_pos hbp, hds]
            rfl
          have hsb : descList s b = ds := by
            unfold descList
            rw [hds]
            rfl
          rw [hLHS]
          have hclause := hdesc b x
          rw [hsb] at hclause
          rw [mem_insertSet]
          constructor
          · rintro (rfl | hxds)
            · refine Or.inr ⟨by simp, horig, ?_⟩
              rw [hbp]
              exact hWn
            · rcases hclause.mp hxds with h | ⟨hxP, hT, hW⟩
              · exact Or.inl h
              · exact Or.inr ⟨List.mem_append.mpr (Or.inl hxP), hT, hW⟩
          · rintro (hold | ⟨hxPn, hT, hW⟩)
            · exact Or.inr (hclause.mpr (Or.inl hold))
            · rcases List.mem_append.mp hxPn with hxP | hxn
              · exact Or.inr (hclause.mpr (Or.inr ⟨hxP, hT, hW⟩))
              · exact Or.inl (by simpa using hxn)
        · have hLHS : descList (setNode (setNode s n
              (fun nd => { nd with toplevel := false })) p
                (fun nd => { nd with descendants := nd.descendants.map (insertSet n) })) b
              = descList s b := by
            unfold descList
            rw [hdesc_s1 b, if_neg hbp]
          rw [hLHS, hdesc b x]
          constructor
          · rintro (h | ⟨hxP, hT, hW⟩)
            · exact Or.inl h
            · exact Or.inr ⟨List.mem_append.mpr (Or.inl hxP), hT, hW⟩
          · rintro (h | ⟨hxPn, hT, hW⟩)
            · exact Or.inl h
            · rcases List.mem_append.mp hxPn with hxP | hxn
              · exact Or.inr ⟨hxP, hT, hW⟩
              · have hxn2 : x = n := by simpa using hxn
                rw [hxn2, hWn] at hW
                simp at hW
                exact absurd hW.symm hbp

/-- The whole `_petrify` loop: processing any list of in-bounds non-root
candidates succeeds and extends the simulation invariant. -/
lemma petrifyFold_sim (t0 : LdapTree) (hp0 : parentsOk t0 = true) :
    ∀ (L P : List Nat) (s : LdapTree),
      (∀ n ∈ L, 0 < n ∧ n < t0.nodes.length) → simInv t0 P s →
      ∃ s', petrifyFold L s = .ok s' ∧ simInv t0 (P ++ L) s' := by
  intro L
  induction L with
  | nil =>
    intro P s _ hinv
    exact ⟨s, rfl, by simpa using hinv⟩
  | cons n L ih =>
    intro P s hL hinv
    obtain ⟨s1, hs1, hinv1⟩ :=
      petrifyNode_sim t0 hp0 P s n (hL n (by simp)).1 (hL n (by simp)).2 hinv
    obtain ⟨s', hs', hinv'⟩ := ih (P ++ [n]) s1 (fun m hm => hL m (by simp [hm])) hinv1
    refine ⟨s', ?_, ?_⟩
    · show (match petrifyNode s n with
        | Except.error exc => Except.error exc
        | Except.ok t1 => petrifyFold L t1) = Except.ok s'
      rw [hs1]
      exact hs'
    · have happ : P ++ [n] ++ L = P ++ n :: L := by simp
      rw [← happ]
      exact hinv'

/-- Master description of `_petrify` on a well-formed tree: it succeeds,
and the result differs from the input only in the `petrified` flag, the
`toplevel` flags and the `descendants` contents, which are exactly as the
per-candidate upward walk dictates. -/
lemma petrify_sim (t0 : LdapTree) (hwf : wfB t0 = true) :
    ∃ t', petrify t0 = .ok t' ∧ t'.petrified = true ∧
      t'.nodes.length = t0.nodes.length ∧
      t'.nodesWithData = t0.nodesWithData ∧ t'.branches = t0.branches ∧
      (∀ i, (getNode t' i).parent = (getNode t0 i).parent ∧
            (getNode t' i).data = (getNode t0 i).data ∧
            (getNode t' i).descendants.isSome = (getNode t0 i).descendants.isSome) ∧
      (∀ i, (getNode t' i).toplevel = true ↔
        ((getNode t0 i).toplevel = true ∧ ¬(i ∈ t0.nodesWithData ∧ foundB t0 i))) ∧
      (∀ b x, x ∈ descList t' b ↔ x ∈ descList t0 b ∨
        (x ∈ t0.nodesWithData ∧ (getNode t0 x).toplevel = true ∧
          walkLoop t0 t0.nodes.length (getNode t0 x).parent = Except.ok (some b))) := by
  obtain ⟨h0, hp, hd, hc⟩ := (wfB_iff t0).mp hwf
  have hinit : simInv t0 [] t0 := by
    refine ⟨rfl, rfl, rfl, rfl, fun i => ⟨rfl, rfl, rfl⟩, ?_, ?_⟩
    · intro i
      simp
    · intro b x
      simp
  obtain ⟨s', hs', hinv'⟩ := petrifyFold_sim t0 hp t0.nodesWithData [] t0
    (fun n hn => (dataNodesOk_iff t0).mp hd n hn) hinit
  obtain ⟨hlen, hnwd, hbr, _, hfields, htl, hdesc⟩ := hinv'
  refine ⟨{ s' with petrified := true }, ?_, rfl, hlen, hnwd, hbr, hfields, ?_, ?_⟩
  · unfold petrify
    rw [hs']
  · intro i
    have := htl i
    simpa using this
  · intro b x
    have := hdesc b x
    simpa [descList] using this

/-- C1, general form: what freeze does to a candidate that kept its
provisional top-level flag. -/
lemma petrify_classifies (t : LdapTree) (hwf : wfB t = true) (t' : LdapTree)
    (hp : petrify t = .ok t') (n : Nat) (hn : n ∈ t.nodesWithData)
    (htl : (getNode t n).toplevel = true) :
    (∀ b, (ancestorsUp t n).find? (qualifies t) = some b →
      (getNode t' n).toplevel = false ∧ n ∈ descList t' b) ∧
    ((ancestorsUp t n).find? (qualifies t) = none →
      (getNode t' n).toplevel = true) := by
  obtain ⟨h0, hpOk, hd, hc⟩ := (wfB_iff t).mp hwf
  obtain ⟨hnpos, hnlen⟩ := (dataNodesOk_iff t).mp hd n hn
  obtain ⟨q, hq, hqlt⟩ := (parentsOk_iff t).mp hpOk n hnlen (by omega)
  obtain ⟨t'', hpet, _, _, _, _, _, htlC, hdescC⟩ := petrify_sim t hwf
  have ht'' : t'' = t' := by
    rw [hpet] at hp
    simpa using hp
  subst ht''
  have hwn : walkLoop t t.nodes.length (getNode t n).parent =
      Except.ok ((ancestorsUp t n).find? (qualifies t)) := by
    unfold ancestorsUp
    rw [hq, walk_eq_find t hpOk t.nodes.length q (by omega) (by omega)]
  constructor
  · intro b hb
    rw [hb] at hwn
    constructor
    · have hiff := htlC n
      rcases hbool : (getNode t'' n).toplevel with _ | _
      · rfl
      · exfalso
        obtain ⟨_, hno⟩ := hiff.mp hbool
        exact hno ⟨hn, ⟨b, hwn⟩⟩
    · exact (hdescC b n).mpr (Or.inr ⟨hn, htl, hwn⟩)
  · intro hnone
    rw [hnone] at hwn
    refine (htlC n).mpr ⟨htl, ?_⟩
    rintro ⟨_, p, hpw⟩
    rw [hwn] at hpw
    simp at hpw

/-! ### Claim theorems -/

/-- C1: after freeze, for every data-bearing node whose provisional
top-level flag was still true, if the strictly-upward ancestor chain
contains an ancestor that both holds (truthy) data and is a branch, then
the nearest such ancestor's `descendants` set contains the node and the
node's flag is false; if no such ancestor exists before the root, the node
keeps its top-level flag.  Ancestors lacking data, or with data but not
branches, are skipped (they are passed over by `find?` on the chain). -/
theorem lia_c1_nearest_branch_ancestor (t : LdapTree) (hwf : wfB t = true)
    (t' : LdapTree) (hp : petrify t = .ok t') (n : Nat)
    (hn : n ∈ t.nodesWithData) (hdat : truthyOpt (getNode t n).data = true)
    (htl : (getNode t n).toplevel = true) :
    (∀ b, (ancestorsUp t n).find? (qualifies t) = some b →
        (getNode t' n).toplevel = false ∧ n ∈ descList t' b) ∧
    ((ancestorsUp t n).find? (qualifies t) = none → (getNode t' n).toplevel = true) :=
  petrify_classifies t hwf t' hp n hn htl

/-- C8: on a well-formed tree, freeze is total — `_petrify` returns a
result (never an exception), and each candidate's upward walk is already
complete within `nodes.length` steps (extra fuel changes nothing, i.e. the
walk terminates by strictly decreasing the node index). -/
theorem lia_c8_freeze_total (t : LdapTree) (hwf : wfB t = true) :
    (∃ t', petrify t = .ok t') ∧
    (∀ n ∈ t.nodesWithData, ∀ k,
      walkLoop t (t.nodes.length + k) (getNode t n).parent =
        walkLoop t t.nodes.length (getNode t n).parent) := by
  obtain ⟨h0, hp, hd, hc⟩ := (wfB_iff t).mp hwf
  constructor
  · obtain ⟨t', hpet, _⟩ := petrify_sim t hwf
    exact ⟨t', hpet⟩
  · intro n hn k
    obtain ⟨hnpos, hnlen⟩ := (dataNodesOk_iff t).mp hd n hn
    obtain ⟨q, hq, hqlt⟩ := (parentsOk_iff t).mp hp n hnlen (by omega)
    rw [hq, walk_eq_find t hp (t.nodes.length + k) q (by omega) (by omega),
        walk_eq_find t hp t.nodes.length q (by omega) (by omega),
        anc_fuel t hp (t.nodes.length + k) t.nodes.length q (by omega) (by omega) (by omega)]

/-- C5: `__iter__` (freeze-then-read) is idempotent — re-iterating the
returned tree yields the very same tree (hence identical branch sets,
`descendants` contents and `toplevel` flags) and the same branch output;
the petrified flag makes the second call skip the classification work. -/
theorem lia_c5_iterate_idempotent (t t1 : LdapTree) (br : List Nat)
    (h : iterate t = .ok (t1, br)) : iterate t1 = .ok (t1, br) := by
  obtain ⟨hbr, hpet⟩ := iterate_ok_inv t t1 br h
  unfold iterate
  rw [hpet]
  simp [hbr]

/-- C4: every `add_node` call on a tree that has been frozen by
`__iter__` fails with `TreePetrifiedError` and returns the tree entirely
unchanged. -/
theorem lia_c4_frozen_add_fails (t0 t1 : LdapTree) (br : List Nat) (e : Entry)
    (is_leaf : Bool) (h : iterate t0 = .ok (t1, br)) :
    add_node t1 e is_leaf = (t1, .error .treePetrifiedError) := by
  have hpet := (iterate_ok_inv t0 t1 br h).2
  rw [add_node_eq]
  have hcore : add_node_core t1 e = (t1, .error .treePetrifiedError) := by
    rw [add_node_core_eq, if_pos hpet]
  rw [hcore]

/-- C7: when `add_node` fails on the data conflict (the `TypeError` that
the source's `raise NodeNotEmptyError(path)` actually produces), the
registration sets, the frozen flag, and every existing node's data and
descendants are unchanged, the arena has only grown, and the whole
normalized path (the skeleton built during the descent) exists in the
returned tree, ending at the still-data-bearing destination. -/
theorem lia_c7_no_rollback (t : LdapTree) (e : Entry) (is_leaf : Bool) (t' : LdapTree)
    (msg : String) (hwf : wfB t = true)
    (h : add_node t e is_leaf = (t', .error (.typeError msg))) :
    t'.nodesWithData = t.nodesWithData ∧ t'.branches = t.branches ∧
    t'.petrified = t.petrified ∧ t.nodes.length ≤ t'.nodes.length ∧
    (∀ i, i < t.nodes.length →
      (getNode t' i).data = (getNode t i).data ∧
      (getNode t' i).descendants = (getNode t i).descendants) ∧
    ∃ d, resolve t' (dn_to_path e.dn) 0 = some d ∧
      truthyOpt (getNode t' d).data = true := by
  have hcore : add_node_core t e = (t', .error (.typeError msg)) := by
    rw [add_node_eq] at h
    cases hr : add_node_core t e with
    | mk t2 res =>
      rw [hr] at h
      cases res with
      | error exc =>
        simp only [Prod.mk.injEq, Except.error.injEq] at h
        rw [h.1, h.2]
      | ok nid =>
        cases is_leaf with
        | true => simp at h
        | false => simp at h
  obtain ⟨hpet, ht', hconf⟩ := add_node_core_conflict_inv t e t' msg hcore
  obtain ⟨h0, hpOk, hd, hc⟩ := (wfB_iff t).mp hwf
  obtain ⟨rlen, rnwd, rbr, rpet, rfields, rmono, rge⟩ := descend_spec (dn_to_path e.dn) t 0 true
  refine ⟨by rw [ht']; exact rnwd, by rw [ht']; exact rbr, by rw [ht']; exact rpet,
    by rw [ht']; exact rlen, ?_, ?_⟩
  · intro i hi
    rw [ht']
    exact ⟨(rfields i hi).1, (rfields i hi).2.1⟩
  · refine ⟨(descendLoop (dn_to_path e.dn) t 0 true).2.1, ?_, ?_⟩
    · rw [ht']
      exact descend_resolve (dn_to_path e.dn) t 0 true h0 hc h0
    · exact hconf

/-- C9 (corrected): the internal `_add_node` does return the destination
node — the node at the end of the normalized path, which now carries the
inserted data — but the public `add_node` returns `None` on success. -/
theorem lia_c9_amended (t : LdapTree) (e : Entry) (t' : LdapTree) (d : Nat)
    (hwf : wfB t = true) (hpath : dn_to_path e.dn ≠ [])
    (h : add_node_core t e = (t', .ok d)) :
    resolve t' (dn_to_path e.dn) 0 = some d ∧ (getNode t' d).data = some e ∧
    ∀ is_leaf, (add_node t e is_leaf).2 = .ok none := by
  obtain ⟨hpet, hdd, ht', hnc⟩ := add_node_core_success_inv t e t' d h
  obtain ⟨h0, hpOk, hdOk, hc⟩ := (wfB_iff t).mp hwf
  have hres := descend_resolve (dn_to_path e.dn) t 0 true h0 hc h0
  obtain ⟨r0, rp, rc, rb, rpos⟩ := descend_wf (dn_to_path e.dn) t 0 true h0 hpOk hc h0
  refine ⟨?_, ?_, ?_⟩
  · rw [ht', resolve_congr_children _ _ (children_applyData _ e), hdd]
    exact hres
  · rw [ht', hdd, getNode_applyData, getNode_setNode_self _ _ _ rb]
  · intro is_leaf
    rw [add_node_eq, h]
    cases is_leaf with
    | true => rfl
    | false => rfl

/-- C9 (counterexample to the claim as stated): a successful `add_node`
call returns `None` (modelled `.ok none`), not the destination node. -/
theorem lia_c9_counterexample :
    (add_node emptyTree { dn := [("dc", "com", "")], payload := 0, truthy := true }
      false).2 = Except.ok none := rfl

/-- C2 (the failing run): inserting the same single-component DN twice
with truthy data makes the second `add_node` raise — but what propagates
is the `TypeError` produced inside `NodeNotEmptyError.__init__` by
`reversed()` on the already-exhausted `list_reverseiterator`, not a
`NodeNotEmptyError` carrying the reconstructed path. -/
theorem lia_c2_typeerror_not_nodenotempty :
    (add_node (add_node emptyTree
        { dn := [("dc", "com", "")], payload := 0, truthy := true } false).1
      { dn := [("dc", "com", "")], payload := 1, truthy := true } false).2 =
      Except.error (.typeError "list_reverseiterator object is not reversible") := rfl

/-- C3: two paths that differ only in the order of the attribute/value
pairs inside one multi-valued level normalize to the same segment list
(the pairs are sorted before being joined with `+`), and therefore
`_add_node` resolves both to the same destination node (same returned
node id, same error behavior). -/
theorem lia_c3_pair_order_irrelevant (p s : List DNComp) (l1 l2 : List (String × String))
    (sep : String) (hsep : sep ≠ "+") (h1 : l1 ≠ []) (hperm : l1.Perm l2) :
    dn_to_path (p ++ (mkLevel l1 sep ++ s)) = dn_to_path (p ++ (mkLevel l2 sep ++ s)) ∧
    ∀ (t : LdapTree) (e1 e2 : Entry), e1.dn = p ++ (mkLevel l1 sep ++ s) →
      e2.dn = p ++ (mkLevel l2 sep ++ s) →
      (add_node_core t e1).2 = (add_node_core t e2).2 := by
  have h2 : l2 ≠ [] := by
    intro hl2
    rw [hl2] at hperm
    exact h1 (List.Perm.eq_nil hperm)
  have hmain : dn_to_path (p ++ (mkLevel l1 sep ++ s)) =
      dn_to_path (p ++ (mkLevel l2 sep ++ s)) := by
    unfold dn_to_path
    simp only [List.foldl_append]
    rcases hst : List.foldl dnStep (([], []) : List String × List String) p with ⟨rdn0, path0⟩
    rw [foldl_dnStep_mkLevel sep hsep l1 h1 rdn0 path0,
        foldl_dnStep_mkLevel sep hsep l2 h2 rdn0 path0]
    have hseg : strSort (rdn0 ++ l1.map pairStr) = strSort (rdn0 ++ l2.map pairStr) :=
      strSort_perm_eq _ _ (List.Perm.append_left rdn0 (hperm.map pairStr))
    rw [hseg]
  refine ⟨hmain, ?_⟩
  intro t e1 e2 he1 he2
  rw [add_node_core_eq t e1, add_node_core_eq t e2, he1, he2, hmain]
  by_cases hpet : t.petrified
  · rw [if_pos hpet, if_pos hpet]
  · rw [if_neg hpet, if_neg hpet]
    by_cases hconf : truthyOpt (getNode
        (descendLoop (dn_to_path (p ++ (mkLevel l2 sep ++ s))) t 0 true).1
        (descendLoop (dn_to_path (p ++ (mkLevel l2 sep ++ s))) t 0 true).2.1).data = true
    · rw [if_pos hconf, if_pos hconf]
    · rw [if_neg hconf, if_neg hconf]

lemma getNode_applyData_self (r : LdapTree × Nat × Bool) (e : Entry)
    (h : r.2.1 < r.1.nodes.length) :
    getNode (applyData r e) r.2.1 =
      { getNode r.1 r.2.1 with data := some e, toplevel := r.2.2 } := by
  rw [getNode_applyData, getNode_setNode_self _ _ _ h]

lemma getNode_applyData_ne (r : LdapTree × Nat × Bool) (e : Entry) (i : Nat)
    (h : i ≠ r.2.1) : getNode (applyData r e) i = getNode r.1 i := by
  rw [getNode_applyData, getNode_setNode_ne _ _ _ _ h]

lemma getNode_registerBranch_self (t1 : LdapTree) (nid : Nat) (h : nid < t1.nodes.length) :
    getNode (registerBranch t1 nid) nid = { getNode t1 nid with descendants := some [] } := by
  rw [getNode_registerBranch, getNode_setNode_self _ _ _ h]

lemma getNode_registerBranch_ne (t1 : LdapTree) (nid i : Nat) (h : i ≠ nid) :
    getNode (registerBranch t1 nid) i = getNode t1 i := by
  rw [getNode_registerBranch, getNode_setNode_ne _ _ _ _ h]

lemma add_node_of_error (t : LdapTree) (e : Entry) (is_leaf : Bool) (t1 : LdapTree)
    (exc : Exc) (h : add_node_core t e = (t1, .error exc)) :
    add_node t e is_leaf = (t1, .error exc) := by
  rw [add_node_eq, h]

lemma add_node_of_ok (t : LdapTree) (e : Entry) (is_leaf : Bool) (t1 : LdapTree)
    (d : Nat) (h : add_node_core t e = (t1, .ok d)) :
    add_node t e is_leaf = ((if is_leaf then t1 else registerBranch t1 d), .ok none) := by
  rw [add_node_eq, h]
  cases is_leaf with
  | true => rfl
  | false => rfl

/-- One `add_node` call on a reachable tree (truthy payload, non-empty
path): the invariant is preserved; the arena only grows; every existing
truthy-data node keeps its data, its `descendants` presence and its
branch-set membership; and on success the destination gains truthy data
and is branch-registered (with a `descendants` set) iff `is_leaf` was
false. -/
lemma add_node_anatomy (t : LdapTree) (e : Entry) (is_leaf : Bool)
    (hinv : reachInv t) (he : e.truthy = true) (hpath : dn_to_path e.dn ≠ []) :
    reachInv (add_node t e is_leaf).1 ∧
    t.nodes.length ≤ (add_node t e is_leaf).1.nodes.length ∧
    (∀ j, j < t.nodes.length → truthyOpt (getNode t j).data = true →
      (getNode (add_node t e is_leaf).1 j).data = (getNode t j).data ∧
      (getNode (add_node t e is_leaf).1 j).descendants.isSome =
        (getNode t j).descendants.isSome ∧
      (j ∈ (add_node t e is_leaf).1.branches ↔ j ∈ t.branches)) ∧
    (∀ t1 d, add_node_core t e = (t1, .ok d) →
      d < (add_node t e is_leaf).1.nodes.length ∧
      truthyOpt (getNode (add_node t e is_leaf).1 d).data = true ∧
      ((d ∈ (add_node t e is_leaf).1.branches) ↔ is_leaf = false) ∧
      ((getNode (add_node t e is_leaf).1 d).descendants.isSome = true ↔ is_leaf = false)) := by
  obtain ⟨hwf, hpet, hbrF, hdescF⟩ := hinv
  obtain ⟨h0, hpOk, hdOk, hcOk⟩ := (wfB_iff t).mp hwf
  have hwfres := add_node_wf t e is_leaf hwf hpath
  obtain ⟨rlen, rnwd, rbr, rpet, rfields, rmono, rge⟩ := descend_spec (dn_to_path e.dn) t 0 true
  obtain ⟨r0, rpk, rck, rb, rpos⟩ := descend_wf (dn_to_path e.dn) t 0 true h0 hpOk hcOk h0
  set R : LdapTree × Nat × Bool := descendLoop (dn_to_path e.dn) t 0 true with hR
  have hpetneg : ¬(t.petrified = true) := by rw [hpet]; exact Bool.false_ne_true
  by_cases hconf : truthyOpt (getNode R.1 R.2.1).data = true
  · -- data conflict: the call fails and returns the descended tree
    have hcore : add_node_core t e =
        (R.1, .error (.typeError "list_reverseiterator object is not reversible")) := by
      rw [add_node_core_eq, ← hR, if_neg hpetneg, if_pos hconf]
    have hres : (add_node t e is_leaf).1 = R.1 := by
      rw [add_node_of_error t e is_leaf _ _ hcore]
    rw [hres] at hwfres ⊢
    refine ⟨⟨hwfres, by rw [rpet]; exact hpet, ?_, ?_⟩, rlen, ?_, ?_⟩
    · intro b hb
      rw [rbr] at hb
      obtain ⟨hblt, hbtr, hbds⟩ := hbrF b hb
      obtain ⟨hfd, hfds, _, _⟩ := rfields b hblt
      exact ⟨by omega, by rw [hfd]; exact hbtr, by rw [hfds]; exact hbds⟩
    · intro i hds
      rw [rbr]
      by_cases hilt : i < t.nodes.length
      · obtain ⟨_, hfds, _, _⟩ := rfields i hilt
        rw [hfds] at hds
        exact hdescF i hds
      · have := (rge i (Nat.le_of_not_lt hilt)).2
        rw [this] at hds
        simp at hds
    · intro j hjlt hjtr
      obtain ⟨hfd, hfds, _, _⟩ := rfields j hjlt
      rw [rbr]
      exact ⟨hfd, by rw [hfds], Iff.rfl⟩
    · intro t1 d hcontra
      rw [hcore] at hcontra
      simp at hcontra
  · -- success
    rw [Bool.not_eq_true] at hconf
    have hcore : add_node_core t e = (applyData R e, .ok R.2.1) := by
      rw [add_node_core_eq, ← hR, if_neg hpetneg, if_neg (by rw [hconf]; exact Bool.false_ne_true)]
    have hdnb : R.2.1 ∉ t.branches := by
      intro hmem
      obtain ⟨hblt, hbtr, _⟩ := hbrF _ hmem
      rw [(rfields _ hblt).1] at hconf
      rw [hconf] at hbtr
      exact Bool.false_ne_true hbtr
    have hdns : (getNode R.1 R.2.1).descendants.isSome = false := by
      by_cases hdl : R.2.1 < t.nodes.length
      · by_cases hds : (getNode R.1 R.2.1).descendants.isSome = true
        · exfalso
          rw [(rfields _ hdl).2.1] at hds
          exact hdnb (hdescF _ hds)
        · rwa [Bool.not_eq_true] at hds
      · rw [(rge _ (Nat.le_of_not_lt hdl)).2]
        rfl
    have happ_pet : (applyData R e).petrified = false := by
      rw [applyData_petrified, rpet]
      exact hpet
    have happ_len : t.nodes.length ≤ (applyData R e).nodes.length := by
      rw [applyData_length]
      exact rlen
    have happ_d : getNode (applyData R e) R.2.1 =
        { getNode R.1 R.2.1 with data := some e, toplevel := R.2.2 } :=
      getNode_applyData_self R e rb
    cases is_leaf with
    | true =>
      have hres : (add_node t e true).1 = applyData R e := by
        rw [add_node_of_ok t e true _ _ hcore]
        rfl
      rw [hres] at hwfres ⊢
      refine ⟨⟨hwfres, happ_pet, ?_, ?_⟩, happ_len, ?_, ?_⟩
      · intro b hb
        rw [applyData_branches, rbr] at hb
        obtain ⟨hblt, hbtr, hbds⟩ := hbrF b hb
        have hbne : b ≠ R.2.1 := by
          intro hbe
          exact hdnb (hbe ▸ hb)
        rw [getNode_applyData_ne R e b hbne]
        obtain ⟨hfd, hfds, _, _⟩ := rfields b hblt
        refine ⟨by simp; omega, by rw [hfd]; exact hbtr, by rw [hfds]; exact hbds⟩
      · intro i hds
        rw [applyData_branches, rbr]
        by_cases hie : i = R.2.1
        · exfalso
          rw [hie, happ_d] at hds
          change (getNode R.1 R.2.1).descendants.isSome = true at hds
          rw [hdns] at hds
          exact Bool.false_ne_true hds
        · rw [getNode_applyData_ne R e i hie] at hds
          by_cases hilt : i < t.nodes.length
          · obtain ⟨_, hfds, _, _⟩ := rfields i hilt
            rw [hfds] at hds
            exact hdescF i hds
          · have := (rge i (Nat.le_of_not_lt hilt)).2
            rw [this] at hds
            simp at hds
      · intro j hjlt hjtr
        have hjne : j ≠ R.2.1 := by
          intro hje
          rw [← hje] at hconf
          rw [(rfields j hjlt).1] at hconf
          rw [hconf] at hjtr
          exact Bool.false_ne_true hjtr
        rw [getNode_applyData_ne R e j hjne, applyData_branches, rbr]
        obtain ⟨hfd, hfds, _, _⟩ := rfields j hjlt
        exact ⟨hfd, by rw [hfds], Iff.rfl⟩
      · intro t1 d hok
        rw [hcore] at hok
        simp only [Prod.mk.injEq, Except.ok.injEq] at hok
        refine ⟨?_, ?_, ?_, ?_⟩
        · rw [← hok.2]
          simpa using rb
        · rw [← hok.2, happ_d]
          exact he
        · rw [← hok.2, applyData_branches, rbr]
          exact ⟨fun hmem => absurd hmem hdnb, fun hf => by simp at hf⟩
        · rw [← hok.2, happ_d]
          change (getNode R.1 R.2.1).descendants.isSome = true ↔ (true = false)
          rw [hdns]
          simp
    | false =>
      have hres : (add_node t e false).1 = registerBranch (applyData R e) R.2.1 := by
        rw [add_node_of_ok t e false _ _ hcore]
        rfl
      rw [hres] at hwfres ⊢
      have hdT1 : R.2.1 < (applyData R e).nodes.length := by simpa using rb
      have hreg_d : getNode (registerBranch (applyData R e) R.2.1) R.2.1 =
          { getNode (applyData R e) R.2.1 with descendants := some [] } :=
        getNode_registerBranch_self _ _ hdT1
      have hbrEq : (registerBranch (applyData R e) R.2.1).branches =
          insertSet R.2.1 t.branches := by
        rw [registerBranch_branches, applyData_branches, rbr]
      refine ⟨⟨hwfres, by rw [registerBranch_petrified]; exact happ_pet, ?_, ?_⟩,
        by simpa using rlen, ?_, ?_⟩
      · intro b hb
        rw [hbrEq] at hb
        rcases mem_insertSet.mp hb with hbe | hbmem
        · rw [hbe, hreg_d]
          refine ⟨by simpa using rb, ?_, ?_⟩
          · change truthyOpt (getNode (applyData R e) R.2.1).data = true
            rw [happ_d]
            exact he
          · rfl
        · have hbne : b ≠ R.2.1 := by
            intro hbe2
            exact hdnb (hbe2 ▸ hbmem)
          rw [getNode_registerBranch_ne _ _ _ hbne, getNode_applyData_ne R e b hbne]
          obtain ⟨hblt, hbtr, hbds⟩ := hbrF b hbmem
          obtain ⟨hfd, hfds, _, _⟩ := rfields b hblt
          refine ⟨by simp; omega, by rw [hfd]; exact hbtr, by rw [hfds]; exact hbds⟩
      · intro i hds
        rw [hbrEq]
        by_cases hie : i = R.2.1
        · exact mem_insertSet.mpr (Or.inl hie)
        · rw [getNode_registerBranch_ne _ _ _ hie, getNode_applyData_ne R e i hie] at hds
          refine mem_insertSet.mpr (Or.inr ?_)
          by_cases hilt : i < t.nodes.length
          · obtain ⟨_, hfds, _, _⟩ := rfields i hilt
            rw [hfds] at hds
            exact hdescF i hds
          · have := (rge i (Nat.le_of_not_lt hilt)).2
            rw [this] at hds
            simp at hds
      · intro j hjlt hjtr
        have hjne : j ≠ R.2.1 := by
          intro hje
          rw [← hje] at hconf
          rw [(rfields j hjlt).1] at hconf
          rw [hconf] at hjtr
          exact Bool.false_ne_true hjtr
        rw [getNode_registerBranch_ne _ _ _ hjne, getNode_applyData_ne R e j hjne, hbrEq]
        obtain ⟨hfd, hfds, _, _⟩ := rfields j hjlt
        refine ⟨hfd, by rw [hfds], ?_⟩
        rw [mem_insertSet]
        simp [hjne]
      · intro t1 d hok
        rw [hcore] at hok
        simp only [Prod.mk.injEq, Except.ok.injEq] at hok
        refine ⟨?_, ?_, ?_, ?_⟩
        · rw [← hok.2]
          simpa using rb
        · rw [← hok.2, hreg_d]
          change truthyOpt (getNode (applyData R e) R.2.1).data = true
          rw [happ_d]
          exact he
        · rw [← hok.2, hbrEq]
          exact ⟨fun _ => rfl, fun _ => self_mem_insertSet _ _⟩
        · rw [← hok.2, hreg_d]
          exact ⟨fun _ => rfl, fun _ => rfl⟩

/-- The fresh tree satisfies the reachability invariant. -/
lemma reachInv_empty : reachInv emptyTree := by
  refine ⟨by decide, rfl, ?_, ?_⟩
  · intro b hb
    simp [emptyTree] at hb
  · intro i hds
    exfalso
    have hnone : (getNode emptyTree i).descendants = none := by
      cases i with
      | zero => rfl
      | succ m => rfl
    rw [hnone] at hds
    simp at hds

/-- A whole build phase from a reachable tree: the invariant is kept and
every existing truthy-data node keeps its data, `descendants` presence and
branch membership. -/
lemma runOps_anatomy (ops : List (Entry × Bool)) :
    ∀ (t : LdapTree), reachInv t →
    (∀ op ∈ ops, op.1.truthy = true ∧ dn_to_path op.1.dn ≠ []) →
    reachInv (runOps ops t) ∧
    (∀ d, d < t.nodes.length → truthyOpt (getNode t d).data = true →
      (getNode (runOps ops t) d).data = (getNode t d).data ∧
      (getNode (runOps ops t) d).descendants.isSome = (getNode t d).descendants.isSome ∧
      (d ∈ (runOps ops t).branches ↔ d ∈ t.branches) ∧
      d < (runOps ops t).nodes.length) := by
  induction ops with
  | nil =>
    intro t hinv _
    exact ⟨hinv, fun d hd _ => ⟨rfl, rfl, Iff.rfl, hd⟩⟩
  | cons op rest ih =>
    intro t hinv hok
    obtain ⟨hinv1, hgrow, hpres, _⟩ :=
      add_node_anatomy t op.1 op.2 hinv (hok op (by simp)).1 (hok op (by simp)).2
    obtain ⟨hinvR, hpresR⟩ := ih (runStep t op) hinv1 (fun o ho => hok o (by simp [ho]))
    have hstep : runOps (op :: rest) t = runOps rest (runStep t op) := rfl
    rw [hstep]
    refine ⟨hinvR, ?_⟩
    intro d hd htr
    obtain ⟨hd1, hds1, hmem1⟩ := hpres d hd htr
    have hd1lt : d < (runStep t op).nodes.length := by
      have hg : t.nodes.length ≤ (runStep t op).nodes.length := hgrow
      omega
    have htr1 : truthyOpt (getNode (runStep t op) d).data = true := by
      show truthyOpt (getNode (add_node t op.1 op.2).1 d).data = true
      rw [hd1]
      exact htr
    obtain ⟨hd2, hds2, hmem2, hlt2⟩ := hpresR d hd1lt htr1
    exact ⟨hd2.trans hd1, hds2.trans hds1, hmem2.trans hmem1, hlt2⟩

/-- C6: in a build phase of truthy entries (parser-produced DNs), a
successfully inserted entry's destination node is in the branch set
returned by `__iter__` iff the entry was inserted with `is_leaf = false`,
it carries a `descendants` set iff `is_leaf` was false, and across the
whole tree the iterated branch set is exactly the set of nodes carrying a
`descendants` set. -/
theorem lia_c6_branch_iff_nonleaf (ops : List (Entry × Bool))
    (hok : ∀ op ∈ ops, op.1.truthy = true ∧ dn_to_path op.1.dn ≠ [])
    (pre suf : List (Entry × Bool)) (e : Entry) (is_leaf : Bool)
    (hsplit : ops = pre ++ (e, is_leaf) :: suf)
    (t1 : LdapTree) (d : Nat)
    (hd : add_node_core (runOps pre emptyTree) e = (t1, .ok d))
    (tf : LdapTree) (br : List Nat)
    (hit : iterate (runOps ops emptyTree) = .ok (tf, br)) :
    (d ∈ br ↔ is_leaf = false) ∧
    ((getNode (runOps ops emptyTree) d).descendants.isSome = true ↔ is_leaf = false) ∧
    (∀ i, i ∈ br ↔ (getNode (runOps ops emptyTree) i).descendants.isSome = true) := by
  have hokpre : ∀ op ∈ pre, op.1.truthy = true ∧ dn_to_path op.1.dn ≠ [] := by
    intro op hop
    exact hok op (by rw [hsplit]; exact List.mem_append.mpr (Or.inl hop))
  have hoke : e.truthy = true ∧ dn_to_path e.dn ≠ [] := by
    have := hok (e, is_leaf) (by rw [hsplit]; simp)
    exact this
  have hoksuf : ∀ op ∈ suf, op.1.truthy = true ∧ dn_to_path op.1.dn ≠ [] := by
    intro op hop
    exact hok op (by rw [hsplit]; simp [hop])
  obtain ⟨hinvPre, _⟩ := runOps_anatomy pre emptyTree reachInv_empty hokpre
  obtain ⟨hinvStep, _, _, hdest⟩ :=
    add_node_anatomy (runOps pre emptyTree) e is_leaf hinvPre hoke.1 hoke.2
  obtain ⟨hdlt, hdtr, hdmem, hdds⟩ := hdest t1 d hd
  have hfin : runOps ops emptyTree = runOps suf (runStep (runOps pre emptyTree) (e, is_leaf)) := by
    rw [hsplit]
    unfold runOps
    rw [List.foldl_append]
    rfl
  obtain ⟨hinvFin, hpresFin⟩ :=
    runOps_anatomy suf (runStep (runOps pre emptyTree) (e, is_leaf)) hinvStep hoksuf
  obtain ⟨hdataF, hdsF, hmemF, hltF⟩ := hpresFin d hdlt hdtr
  obtain ⟨hwfF, hpetF, hbrFF, hdescFF⟩ := hinvFin
  have hbrfin : br = (runOps ops emptyTree).branches := by
    unfold iterate at hit
    rw [hfin] at hit ⊢
    rw [hpetF] at hit
    simp only [Bool.not_false, if_pos] at hit
    obtain ⟨t', hpets, _, _, _, hbrs, _, _, _⟩ := petrify_sim _ hwfF
    rw [hpets] at hit
    simp only [Except.ok.injEq, Prod.mk.injEq] at hit
    rw [← hit.2, hbrs]
  rw [hbrfin, hfin]
  refine ⟨hmemF.trans hdmem, ?_, ?_⟩
  · rw [hdsF]
    exact hdds
  · intro i
    constructor
    · intro hmem
      exact (hbrFF i hmem).2.2
    · intro hds
      exact hdescFF i hds

/-- C10: a falsy payload (Python-falsy `data`) makes every operation treat
the node as data-free: (a) a second insert at the same path succeeds and
overwrites the payload instead of failing; (b) nodes with falsy (or no)
data met during a descent do not revoke the destination's provisional
top-level flag; (c) during freeze, an ancestor with assigned-but-falsy
data is not a qualifying ancestor even when it is a registered branch, so
a candidate with no truthy-qualifying ancestor stays top-level. -/
theorem lia_c10_falsy_payloads :
    (∀ (t : LdapTree) (e1 e2 : Entry) (t1 : LdapTree) (d : Nat), wfB t = true →
      add_node_core t e1 = (t1, .ok d) → e1.truthy = false →
      dn_to_path e2.dn = dn_to_path e1.dn →
      ∃ t2, add_node_core t1 e2 = (t2, .ok d) ∧ (getNode t2 d).data = some e2) ∧
    (∀ (t : LdapTree) (e : Entry) (t2 : LdapTree) (d : Nat), wfB t = true →
      add_node_core t e = (t2, .ok d) →
      (∀ i m, resolve t ((dn_to_path e.dn).take (i + 1)) 0 = some m →
        truthyOpt (getNode t m).data = false) →
      (getNode t2 d).toplevel = true) ∧
    (∀ (t : LdapTree), wfB t = true → ∀ (t' : LdapTree), petrify t = .ok t' →
      ∀ n ∈ t.nodesWithData, (getNode t n).toplevel = true →
      (ancestorsUp t n).find? (qualifies t) = none →
      ∀ b ∈ ancestorsUp t n, (getNode t b).data ≠ none →
        truthyOpt (getNode t b).data = false →
        (getNode t b).descendants.isSome = true →
        (getNode t' n).toplevel = true) := by
  refine ⟨?_, ?_, ?_⟩
  · intro t e1 e2 t1 d hwf h1 he1f hdn
    obtain ⟨hpet, hdd, ht1, hnc⟩ := add_node_core_success_inv t e1 t1 d h1
    obtain ⟨h0, hpOk, hdOk, hcOk⟩ := (wfB_iff t).mp hwf
    obtain ⟨r0, rpk, rck, rb, rpos⟩ := descend_wf (dn_to_path e1.dn) t 0 true h0 hpOk hcOk h0
    obtain ⟨rlen, rnwd, rbr, rpet, rfields, rmono, rge⟩ :=
      descend_spec (dn_to_path e1.dn) t 0 true
    have hres1 : resolve t1 (dn_to_path e1.dn) 0 = some d := by
      rw [ht1, resolve_congr_children _ _ (children_applyData _ e1), hdd]
      exact descend_resolve (dn_to_path e1.dn) t 0 true h0 hcOk h0
    obtain ⟨tl2, hdl⟩ := descend_existing (dn_to_path e1.dn) t1 0 true d hres1
    have ht1pet : t1.petrified = false := by
      rw [ht1, applyData_petrified, rpet]
      exact hpet
    have hdlt1 : d < t1.nodes.length := by
      rw [ht1]
      simp only [applyData_length]
      rw [hdd]
      exact rb
    have hd_data : (getNode t1 d).data = some e1 := by
      rw [ht1, hdd, getNode_applyData_self _ _ rb]
    have hd_truthy : truthyOpt (getNode t1 d).data = false := by
      rw [hd_data]
      exact he1f
    refine ⟨applyData (t1, d, tl2) e2, ?_, ?_⟩
    · rw [add_node_core_eq t1 e2, hdn, hdl]
      rw [if_neg (by rw [ht1pet]; exact Bool.false_ne_true)]
      rw [if_neg (by
        change ¬(truthyOpt (getNode t1 d).data = true)
        rw [hd_truthy]
        exact Bool.false_ne_true)]
    · show ((getNode (applyData (t1, d, tl2) e2) ((t1, d, tl2).2.1)).data = some e2)
      rw [getNode_applyData_self (t1, d, tl2) e2 hdlt1]
  · intro t e t2 d hwf hcore hsafe
    obtain ⟨hpet, hdd, ht2, hnc⟩ := add_node_core_success_inv t e t2 d hcore
    obtain ⟨h0, hpOk, hdOk, hcOk⟩ := (wfB_iff t).mp hwf
    obtain ⟨r0, rpk, rck, rb, rpos⟩ := descend_wf (dn_to_path e.dn) t 0 true h0 hpOk hcOk h0
    have htl : (descendLoop (dn_to_path e.dn) t 0 true).2.2 = true :=
      descend_tl_true (dn_to_path e.dn) t 0 h0 hcOk h0 hsafe
    rw [ht2, hdd]
    show (getNode (applyData (descendLoop (dn_to_path e.dn) t 0 true) e)
      ((descendLoop (dn_to_path e.dn) t 0 true).2.1)).toplevel = true
    rw [getNode_applyData_self _ _ rb]
    exact htl
  · intro t hwf t' hpetr n hn htl hnone b hb hbdata hbfalsy hbbr
    exact (petrify_classifies t hwf t' hpetr n hn htl).2 hnone

/-! ### Closed witnesses instantiating the claim theorems -/

theorem lia_c1_witness :
    (getNode treeP 2).toplevel = false ∧ 2 ∈ descList treeP 1 := by
  have h := lia_c1_nearest_branch_ancestor treeC (by decide) treeP (by rfl) 2 (by decide)
    (by rfl) (by rfl)
  exact h.1 1 (by rfl)

theorem lia_c3_witness :
    dn_to_path ([] ++ (mkLevel [("cn", "a"), ("ou", "b")] "," ++ [("dc", "com", "")])) =
      dn_to_path ([] ++ (mkLevel [("ou", "b"), ("cn", "a")] "," ++ [("dc", "com", "")])) :=
  (lia_c3_pair_order_irrelevant [] [("dc", "com", "")] [("cn", "a"), ("ou", "b")]
    [("ou", "b"), ("cn", "a")] "," (by decide) (by decide) (by decide)).1

theorem lia_c4_witness :
    add_node treeP entF false = (treeP, .error .treePetrifiedError) :=
  lia_c4_frozen_add_fails treeC treeP treeP.branches entF false (by rfl)

theorem lia_c5_witness :
    iterate treeP = .ok (treeP, treeP.branches) :=
  lia_c5_iterate_idempotent treeC treeP treeP.branches (by rfl)

theorem lia_c6_witness :
    (2 ∈ br6 ↔ true = false) ∧
    ((getNode tree6 2).descendants.isSome = true ↔ true = false) := by
  have h := lia_c6_branch_iff_nonleaf [(entP, false), (entA, true)] (by decide)
    [(entP, false)] [] entA true rfl tree6mid 2 (by rfl) tree6P br6 (by rfl)
  exact ⟨h.1, h.2.1⟩

theorem lia_c7_witness :
    tree7c.nodesWithData = tree7.nodesWithData ∧ tree7c.branches = tree7.branches := by
  have h := lia_c7_no_rollback tree7 entPdup false tree7c
    "list_reverseiterator object is not reversible" (by decide) (by rfl)
  exact ⟨h.1, h.2.1⟩

theorem lia_c8_witness :
    walkLoop treeC (treeC.nodes.length + 5) (getNode treeC 2).parent =
      walkLoop treeC treeC.nodes.length (getNode treeC 2).parent :=
  (lia_c8_freeze_total treeC (by decide)).2 2 (by decide) 5

theorem lia_c9_amended_witness :
    (getNode tree9 2).data = some entA ∧ (add_node tree7 entA true).2 = Except.ok none := by
  have h := lia_c9_amended tree7 entA tree9 2 (by decide) (by decide) (by rfl)
  exact ⟨h.2.1, h.2.2 true⟩

theorem lia_c10_falsy_payloads_witness :
    (add_node_core treeF1 entP).2 = Except.ok 1 ∧
    (getNode (add_node_core treeF1 entP).1 1).data = some entP ∧
    (getNode tree10b 2).toplevel = true ∧
    (getNode tree10cp 2).toplevel = true := by
  obtain ⟨ha, hb, hc⟩ := lia_c10_falsy_payloads
  obtain ⟨t2, h1, h2⟩ := ha emptyTree entF entP treeF1 1 (by decide) (by rfl) (by rfl) (by rfl)
  refine ⟨?_, ?_, ?_, ?_⟩
  · rw [h1]
  · rw [h1]
    exact h2
  · refine hb tree10pre entA tree10b 2 (by decide) (by rfl) ?_
    intro i m hres
    cases i with
    | zero =>
      have hres2 : (some 1 : Option Nat) = some m := hres
      injection hres2 with hm
      subst hm
      decide
    | succ j =>
      have htake : (dn_to_path entA.dn).take (j + 1 + 1) = dn_to_path entA.dn := by
        apply List.take_of_length_le
        have hlen2 : (dn_to_path entA.dn).length = 2 := by decide
        omega
      rw [htake] at hres
      have hres2 : (none : Option Nat) = some m := hres
      exact Option.noConfusion hres2
  · exact hc tree10c (by decide) tree10cp (by rfl) 2 (by decide) (by rfl) (by decide) 1
      (by decide) (by decide) (by rfl) (by rfl)

end Lia
